import Mathlib

/-!
Verification development for the barrel-breaker import rewriter.

The JavaScript source (lib/barrelBreaker.js, lib/purge.js and the
initialization section of the current runBarrelBreaker) is shallowly
embedded below.  External collaborators (the ts-morph parsing/resolution
service, path.resolve / path.relative and the filesystem) are modelled as
oracle functions carried by the `Project` record; everything the repository
itself implements (string manipulation on specifiers, the recursive
re-export map builder, import classification and rewriting, grouping,
purge classification, tsconfig loading) is translated directly.
-/

set_option autoImplicit false

namespace BarrelBreaker

/-! ## JS string primitives

The source manipulates specifier strings with `String.prototype.replace`
(first occurrence for string patterns), `startsWith`, the regexes
`/\.tsx?$/` and `/\\/g`, and `||` (falsy fallback, where the empty string
is falsy).  These are modelled on the character list of a `String`. -/

/-- JS `s.replace(pat, repl)` with a string pattern: replaces the first
occurrence of `pat` in `s`, or returns `s` unchanged when there is none.
An empty pattern matches at position 0, as in JS. -/
def replaceFirstList (pat repl : List Char) : List Char → List Char
  | [] => if pat.isPrefixOf ([] : List Char) then repl else []
  | c :: cs =>
    if pat.isPrefixOf (c :: cs) then repl ++ (c :: cs).drop pat.length
    else c :: replaceFirstList pat repl cs

def jsReplaceFirst (s pat repl : String) : String :=
  ⟨replaceFirstList pat.data repl.data s.data⟩

/-- JS `s.startsWith(pre)`. -/
def jsStartsWith (s pre : String) : Bool :=
  pre.data.isPrefixOf s.data

/-- JS `s.endsWith(suf)`. -/
def jsEndsWith (s suf : String) : Bool :=
  suf.data.isSuffixOf s.data

def jsDropRight (s : String) (n : Nat) : String :=
  ⟨s.data.take (s.data.length - n)⟩

/-- JS `s.replace(/\.tsx?$/, "")`: strip a trailing `.ts` or `.tsx`
source-file extension. -/
def stripTsExt (s : String) : String :=
  if jsEndsWith s ".tsx" then jsDropRight s 4
  else if jsEndsWith s ".ts" then jsDropRight s 3
  else s

/-- JS `s.replace(/\\/g, "/")`: normalize path separators. -/
def slashNormalize (s : String) : String :=
  ⟨s.data.map (fun c => if c = '\\' then '/' else c)⟩

/-- JS `a || b` where `a` is a possibly-undefined string: `undefined` and
the empty string are falsy. -/
def jsOrStr (a : Option String) (b : String) : String :=
  match a with
  | some s => if s = "" then b else s
  | none => b

/-! ## JS `Map` on string keys, as an insertion-ordered association list

`Map.prototype.set` updates the value in place when the key is present
(keeping its position) and appends otherwise; keys are unique. -/

def mapSet {α : Type} : List (String × α) → String → α → List (String × α)
  | [], k, v => [(k, v)]
  | kv :: rest, k, v =>
    if kv.1 = k then (k, v) :: rest else kv :: mapSet rest k v

def mapGet {α : Type} : List (String × α) → String → Option α
  | [], _ => none
  | kv :: rest, k => if kv.1 = k then some kv.2 else mapGet rest k

/-! ## Data model

A parsed module, as the source observes it through ts-morph: its absolute
file path, its top-level statements (only the export-declaration structure
matters to the tool; everything else is `other`) and its import
declarations. -/

/-- One clause of a named (re-)export: `export { nameNode }` or
`export { nameNode as aliasNode }`. -/
structure NamedExportSpec where
  nameNode : String
  aliasNode : Option String
  deriving Repr, DecidableEq

/-- An `ExportDeclaration` node: `export * from m`, `export {...} from m`
or a specifier-less `export {...}`. -/
structure ExportDecl where
  moduleSpecifier : Option String
  isNamespaceExport : Bool
  namedExports : List NamedExportSpec
  deriving Repr, DecidableEq

inductive Statement where
  | exportDecl (d : ExportDecl)
  | other
  deriving Repr, DecidableEq

/-- One clause of a named import: `import { name }` or
`import { name as aliasNode }`. -/
structure NamedImportSpec where
  name : String
  aliasNode : Option String
  deriving Repr, DecidableEq

structure ImportDecl where
  moduleSpecifier : String
  defaultImport : Option String
  namedImports : List NamedImportSpec
  deriving Repr, DecidableEq

structure Module where
  path : String
  statements : List Statement
  imports : List ImportDecl
  deriving Repr, DecidableEq

/-- ts-morph `sourceFile.getExportDeclarations()`: the export-declaration
statements of the file, in order. -/
def Module.getExportDeclarations (m : Module) : List ExportDecl :=
  m.statements.filterMap fun s =>
    match s with
    | .exportDecl d => some d
    | .other => none

/-- The project: the parsed modules plus the external services the source
calls into.  `resolveExportSpecifier` models
`exportDecl.getModuleSpecifierSourceFile()` together with the manual
`.ts`/`.tsx`/`index.ts`/`index.tsx` probing fallback;
`resolveImportSpecifier` models `importDecl.getModuleSpecifierSourceFile()`;
`exportedDeclPath` models
`declarations.getExportedDeclarations().get(name)[0].getSourceFile().getFilePath()`;
`defaultExportPath` models
`declarations.getDefaultExportSymbol()?.getDeclarations()[0].getSourceFile().getFilePath()`;
`pathResolve` models `path.resolve`; `relative` models
`path.relative(path.dirname(from), to)`; `paths` is the tsconfig
`compilerOptions.paths` table in declaration order. -/
structure Project where
  modules : List Module
  resolveExportSpecifier : String → String → Option String
  resolveImportSpecifier : String → String → Option String
  exportedDeclPath : String → String → Option String
  defaultExportPath : String → Option String
  pathResolve : String → String
  relative : String → String → String
  paths : List (String × List String)

def Project.findModule (p : Project) (path : String) : Option Module :=
  p.modules.find? fun m => m.path = path

/-! ## Export Map Builder (`getReExportMapRecursive`)

An `ExportEntry` records, for one externally visible name of a barrel, the
name under which the clause that produced it refers to the symbol
(`localName`, the clause's name node) and the file path the clause's
module specifier resolved to (`resolvedPath`). -/

structure ExportEntry where
  localName : String
  resolvedPath : String
  deriving Repr, DecidableEq

abbrev ExportMap := List (String × ExportEntry)

/-- `spec.getAliasNode()?.getText() || spec.getNameNode().getText()`. -/
def exportedNameOfSpec (s : NamedExportSpec) : String :=
  jsOrStr s.aliasNode s.nameNode

/-- Resolution of one export declaration's module specifier to a project
module; models `getModuleSpecifierSourceFile()` plus the filesystem
probing fallback, both of which yield a source file of the project. -/
def resolveExportTarget (proj : Project) (fromPath : String) (d : ExportDecl) :
    Option Module :=
  match d.moduleSpecifier with
  | none => none
  | some spec => (proj.resolveExportSpecifier fromPath spec).bind proj.findModule

/-- The loop body of `getReExportMapRecursive` over the export
declarations of the current file.  `recur` is the recursive call (the
builder at one unit less fuel); `seen` is threaded because the JS `Set` is
mutated in place and shared by all recursive calls of one top-level
invocation. -/
def reExportDeclsLoop (proj : Project)
    (recur : Module → List String → Option (ExportMap × List String))
    (sfPath : String) :
    List ExportDecl → List String → ExportMap → Option (ExportMap × List String)
  | [], seen, acc => some (acc, seen)
  | d :: ds, seen, acc =>
    match resolveExportTarget proj sfPath d with
    | none => reExportDeclsLoop proj recur sfPath ds seen acc
    | some target =>
      if d.isNamespaceExport then
        match recur target seen with
        | none => none
        | some (nested, seen') =>
          reExportDeclsLoop proj recur sfPath ds seen'
            (nested.foldl (fun m kv => mapSet m kv.1 kv.2) acc)
      else
        reExportDeclsLoop proj recur sfPath ds seen
          (d.namedExports.foldl
            (fun m sp =>
              mapSet m (exportedNameOfSpec sp) ⟨sp.nameNode, target.path⟩)
            acc)

/-- `getReExportMapRecursive(project, sourceFile, seen)`, made total with a
fuel parameter; `reExportMapFuel_isSome` below shows the fuel used by the
wrapper is always sufficient, so the fuel never changes the semantics. -/
def getReExportMapFuel (proj : Project) :
    Nat → Module → List String → Option (ExportMap × List String)
  | 0, _, _ => none
  | fuel + 1, sf, seen =>
    if sf.path ∈ seen then some ([], seen)
    else
      reExportDeclsLoop proj (getReExportMapFuel proj fuel) sf.path
        sf.getExportDeclarations (seen ++ [sf.path]) []

/-- `getReExportMapRecursive(project, sourceFile)` as called by
`rewriteImportsInFile` (fresh `seen`). -/
def getReExportMapRecursive (proj : Project) (sf : Module) : Option ExportMap :=
  (getReExportMapFuel proj (proj.modules.length + 2) sf []).map Prod.fst

/-! ## Alias Resolver (`resolveAlias`, `getRelativePath`) -/

/-- The `for (const alias of Object.keys(paths))` loop of `resolveAlias`.
An entry with no base paths is skipped (the `if (!basePaths) continue`
guard); otherwise only `basePaths[0]` is consulted. -/
def resolveAliasLoop (pathResolve : String → String) (resolvedPath : String) :
    List (String × List String) → Option String
  | [] => none
  | (aliasKey, basePaths) :: rest =>
    match basePaths with
    | [] => resolveAliasLoop pathResolve resolvedPath rest
    | base :: _ =>
      let absolute := pathResolve (jsReplaceFirst base "/*" "")
      if jsStartsWith resolvedPath absolute then
        some (slashNormalize (stripTsExt
          (jsReplaceFirst resolvedPath absolute (jsReplaceFirst aliasKey "/*" ""))))
      else resolveAliasLoop pathResolve resolvedPath rest

/-- `resolveAlias(paths, resolvedPath)`. -/
def resolveAlias (pathResolve : String → String)
    (paths : List (String × List String)) (resolvedPath : String) : Option String :=
  resolveAliasLoop pathResolve resolvedPath paths

/-- `getRelativePath(from, to)`: `path.relative(path.dirname(from), to)`
(the oracle `relativeFn`), extension stripped, `./`-prefixed when needed,
separators normalized. -/
def getRelativePath (relativeFn : String → String → String)
    (fromPath toPath : String) : String :=
  let r0 := stripTsExt (relativeFn fromPath toPath)
  let r1 := if jsStartsWith r0 "." then r0 else "./" ++ r0
  slashNormalize r1

/-- The specifier computed for a defining file:
`resolveAlias(paths, resolvedFile) || getRelativePath(sourceFile.getFilePath(), resolvedFile)`. -/
def computeResolved (proj : Project) (selfPath resolvedFile : String) : String :=
  jsOrStr (resolveAlias proj.pathResolve proj.paths resolvedFile)
    (getRelativePath proj.relative selfPath resolvedFile)

/-- `Object.keys(paths).map((p) => p.replace("/*", ""))`. -/
def aliasPrefixList (proj : Project) : List String :=
  proj.paths.map fun kv => jsReplaceFirst kv.1 "/*" ""

/-! ## Rewrite Planner (`processImportDeclaration`) -/

/-- One value of the `rewrittenBySpecifier` map: the named bindings pushed
for a resolved specifier plus its optional default import. -/
structure GroupAcc where
  named : List (String × String)
  defaultImport : Option String
  deriving Repr, DecidableEq

/-- `rewrittenBySpecifier.get(resolved).named.push(...)`, creating the
entry with `{ named: [], defaultImport: undefined }` first when absent. -/
def pushNamed : List (String × GroupAcc) → String → String × String →
    List (String × GroupAcc)
  | [], k, pr => [(k, ⟨[pr], none⟩)]
  | kv :: rest, k, pr =>
    if kv.1 = k then (k, ⟨kv.2.named ++ [pr], kv.2.defaultImport⟩) :: rest
    else kv :: pushNamed rest k pr

/-- The mutable state of `processImportDeclaration`: the
`rewrittenBySpecifier` map, the `keptNamed` array and the `changed` flag. -/
structure ProcState where
  rewritten : List (String × GroupAcc)
  keptNamed : List NamedImportSpec
  changed : Bool
  deriving Repr, DecidableEq

/-- The default-import section of `processImportDeclaration` (runs before
the named-import loop and initializes the state). -/
def processDefaultImport (proj : Project) (barrelPath selfPath moduleSpecifier : String)
    (defaultImport : Option String) : ProcState :=
  match defaultImport with
  | none => ⟨[], [], false⟩
  | some d =>
    match proj.defaultExportPath barrelPath with
    | none => ⟨[], [], false⟩
    | some resolvedFile =>
      let resolved := computeResolved proj selfPath resolvedFile
      if resolved = moduleSpecifier then ⟨[], [], false⟩
      else ⟨[(resolved, ⟨[], some d⟩)], [], true⟩

/-- The body of the `importDecl.getNamedImports().forEach(...)` loop. -/
def processNamedImport (proj : Project) (barrelPath selfPath moduleSpecifier : String)
    (reExportMap : ExportMap) (st : ProcState) (ni : NamedImportSpec) : ProcState :=
  let usedName := jsOrStr ni.aliasNode ni.name
  match proj.exportedDeclPath barrelPath ni.name with
  | none => { st with keptNamed := st.keptNamed ++ [ni] }
  | some resolvedFile =>
    let resolved := computeResolved proj selfPath resolvedFile
    let originalExportName :=
      match mapGet reExportMap ni.name with
      | some e => if e.resolvedPath = resolvedFile then e.localName else ni.name
      | none => ni.name
    if resolved = moduleSpecifier then { st with keptNamed := st.keptNamed ++ [ni] }
    else
      { st with
        rewritten := pushNamed st.rewritten resolved (originalExportName, usedName),
        changed := true }

/-- The final state after the default section and the named-import loop. -/
def processState (proj : Project) (barrel : Module) (selfPath : String)
    (imp : ImportDecl) (reExportMap : ExportMap) : ProcState :=
  imp.namedImports.foldl
    (processNamedImport proj barrel.path selfPath imp.moduleSpecifier reExportMap)
    (processDefaultImport proj barrel.path selfPath imp.moduleSpecifier imp.defaultImport)

/-- The outcome of `processImportDeclaration`: whether anything changed,
the `rewrittenBySpecifier` entries in insertion order and the residual kept-bindings
statement that is added under the original specifier (only
when something changed and `keptNamed` is non-empty). -/
structure ProcessResult where
  changed : Bool
  rewrittenImports : List (String × GroupAcc)
  residual : Option (List NamedImportSpec)
  deriving Repr, DecidableEq

def processImportDeclaration (proj : Project) (barrel : Module) (selfPath : String)
    (imp : ImportDecl) (reExportMap : ExportMap) : ProcessResult :=
  let st := processState proj barrel selfPath imp reExportMap
  if st.changed then
    { changed := true
      rewrittenImports := st.rewritten
      residual := if st.keptNamed.isEmpty then none else some st.keptNamed }
  else
    { changed := false, rewrittenImports := [], residual := none }

/-! ## Import Analyzer and per-file rewrite (`rewriteImportsInFile`) -/

/-- `declarations.getExportDeclarations().length > 0`. -/
def isBarrelModule (m : Module) : Bool :=
  decide (0 < m.getExportDeclarations.length)

/-- The per-import analysis of `rewriteImportsInFile`: `none` when the statement
is skipped (external specifier, unresolved target, non-barrel
target) or when `processImportDeclaration` reports no change; otherwise
the changed result. -/
def importChange (proj : Project) (selfPath : String) (imp : ImportDecl) :
    Option ProcessResult :=
  let ms := imp.moduleSpecifier
  let isLocalImport :=
    jsStartsWith ms "." || (aliasPrefixList proj).any fun a => jsStartsWith ms a
  if !isLocalImport then none
  else
    match (proj.resolveImportSpecifier selfPath ms).bind proj.findModule with
    | none => none
    | some declarations =>
      if isBarrelModule declarations then
        let reExportMap := (getReExportMapRecursive proj declarations).getD []
        let r := processImportDeclaration proj declarations selfPath imp reExportMap
        if r.changed then some r else none
      else none

/-- `importGroups[specifier]` update for one rewritten entry: initialize
the group when absent, overwrite the default slot when the entry carries a
default, and `Map.set` every named pair. -/
def mergeGroupEntry (old g : GroupAcc) : GroupAcc :=
  { defaultImport :=
      match g.defaultImport with
      | some d => some d
      | none => old.defaultImport
    named := g.named.foldl (fun nm pr => mapSet nm pr.1 pr.2) old.named }

/-- `importGroups` is a JS object keyed by specifier: insertion ordered,
unique keys. -/
def setGroup : List (String × GroupAcc) → String → GroupAcc →
    List (String × GroupAcc)
  | [], spec, g => [(spec, mergeGroupEntry ⟨[], none⟩ g)]
  | kv :: rest, spec, g =>
    if kv.1 = spec then (kv.1, mergeGroupEntry kv.2 g) :: rest
    else kv :: setGroup rest spec g

def mergeGroups (l : List (String × GroupAcc)) : List (String × GroupAcc) :=
  l.foldl (fun gs kv => setGroup gs kv.1 kv.2) []

/-- All rewritten entries of one file, in processing order (the
concatenation of `result.rewrittenImports` over the changed imports). -/
def fileRewrittenList (proj : Project) (file : Module) : List (String × GroupAcc) :=
  (file.imports.filterMap (importChange proj file.path)).foldl
    (fun l pr => l ++ pr.rewrittenImports) []

/-- The `importGroups` object after the forEach loop. -/
def fileGroups (proj : Project) (file : Module) : List (String × GroupAcc) :=
  mergeGroups (fileRewrittenList proj file)

/-- Emission of one merged group:
`namedImports: named.map(([name, alias]) => name === alias ? name : { name, alias })`
with the group's default in the single default slot. -/
def groupToImportDecl (spec : String) (g : GroupAcc) : ImportDecl :=
  { moduleSpecifier := spec
    defaultImport := g.defaultImport
    namedImports := g.named.map fun pr =>
      if pr.1 = pr.2 then ⟨pr.1, none⟩ else ⟨pr.1, some pr.2⟩ }

/-- The residual import added by `processImportDeclaration` for the kept
bindings, under the original specifier. -/
def residualToImportDecl (spec : String) (kept : List NamedImportSpec) : ImportDecl :=
  { moduleSpecifier := spec, defaultImport := none, namedImports := kept }

/-- `rewriteImportsInFile`: imports whose analysis produced no change keep
their original positions; the residual imports are appended during the
loop; the merged group imports are appended after it.  Statements are
untouched. -/
def rewriteImportsInFile (proj : Project) (file : Module) : Module :=
  let results := file.imports.map fun imp => (imp, importChange proj file.path imp)
  let keptImports := (results.filter fun r => r.2.isNone).map Prod.fst
  let residuals := results.filterMap fun r =>
    r.2.bind fun pr =>
      pr.residual.map fun kept => residualToImportDecl r.1.moduleSpecifier kept
  { file with
    imports := keptImports ++ residuals ++
      (fileGroups proj file).map fun kv => groupToImportDecl kv.1 kv.2 }

/-! ## Barrel Purifier (`isPureBarrelFile`, the partition of `purgeBarrels`) -/

/-- The statement predicate inside `isPureBarrelFile`:
`stmt.getKindName() === "ExportDeclaration" && !!stmt.getModuleSpecifierValue()`. -/
def isReExportStatement (s : Statement) : Bool :=
  match s with
  | .exportDecl d =>
    match d.moduleSpecifier with
    | some sp => !(sp = "")
    | none => false
  | .other => false

def isPureBarrelFile (m : Module) : Bool :=
  if m.statements.length = 0 then false
  else m.statements.all isReExportStatement

inductive BarrelClass where
  | pureBarrel
  | impureBarrel
  | notBarrel
  deriving Repr, DecidableEq, BEq

/-- The partition performed by `purgeBarrels` over the scanned files. -/
def classifyBarrel (m : Module) : BarrelClass :=
  if 0 < m.getExportDeclarations.length then
    if isPureBarrelFile m then .pureBarrel else .impureBarrel
  else .notBarrel

/-! ## tsconfig loading (initialization section of `runBarrelBreaker`) -/

structure TsconfigCompilerOptions where
  paths : Option (List (String × List String))

structure Tsconfig where
  compilerOptions : Option TsconfigCompilerOptions

/-- `tsconfig.compilerOptions?.paths || {}`. -/
def tsconfigPathsOf (t : Tsconfig) : List (String × List String) :=
  match t.compilerOptions with
  | none => []
  | some co => co.paths.getD []

structure InitResult where
  warned : Bool
  pathsConfig : List (String × List String)
  aliasPrefixes : List String
  deriving Repr, DecidableEq

/-- The initialization of `runBarrelBreaker`: when the tsconfig file
exists it is read and parsed (read or parse failure propagates as a thrown
error); when it is absent a warning is printed and the run proceeds with
`{ compilerOptions: { paths: {} } }`. -/
def loadTsconfigInit (existsFile : String → Bool)
    (readParse : String → Except String Tsconfig) (tsconfigPath : String) :
    Except String InitResult :=
  if existsFile tsconfigPath then
    match readParse tsconfigPath with
    | .error e => .error e
    | .ok cfg =>
      let ps := tsconfigPathsOf cfg
      .ok ⟨false, ps, ps.map fun kv => jsReplaceFirst kv.1 "/*" ""⟩
  else
    let cfg : Tsconfig := ⟨some ⟨some []⟩⟩
    let ps := tsconfigPathsOf cfg
    .ok ⟨true, ps, ps.map fun kv => jsReplaceFirst kv.1 "/*" ""⟩

/-! ## Generic lemmas about the embedded primitives -/

theorem length_filter_le_of_imp {α : Type} (l : List α) (p q : α → Bool)
    (h : ∀ x, q x = true → p x = true) :
    (l.filter q).length ≤ (l.filter p).length := by
  induction l with
  | nil => simp
  | cons x xs ih =>
    by_cases hq : q x = true
    · simp [List.filter_cons, hq, h x hq]
      omega
    · simp only [List.filter_cons, Bool.not_eq_true] at hq ⊢
      rw [hq]
      by_cases hp : p x = true
      · simp [hp]
        omega
      · simp only [Bool.not_eq_true] at hp
        rw [hp]
        simpa using ih

theorem length_filter_lt_of_imp {α : Type} (l : List α) (p q : α → Bool)
    (h : ∀ x, q x = true → p x = true) (x : α) (hx : x ∈ l)
    (hpx : p x = true) (hqx : q x = false) :
    (l.filter q).length < (l.filter p).length := by
  induction l with
  | nil => cases hx
  | cons y ys ih =>
    rcases List.mem_cons.1 hx with hxy | hxys
    · subst hxy
      simp only [List.filter_cons, hpx, hqx]
      simp only [if_true, Bool.false_eq_true, if_false, List.length_cons]
      exact Nat.lt_succ_of_le (length_filter_le_of_imp ys p q h)
    · have hlt := ih hxys
      by_cases hqy : q y = true
      · simp [List.filter_cons, hqy, h y hqy]
        omega
      · simp only [Bool.not_eq_true] at hqy
        simp only [List.filter_cons, hqy]
        by_cases hpy : p y = true
        · simp only [hpy, if_true, Bool.false_eq_true, if_false, List.length_cons]
          omega
        · simp only [Bool.not_eq_true] at hpy
          simp only [hpy, Bool.false_eq_true, if_false]
          exact hlt

/-! ## Cycle safety and termination of the Export Map Builder -/

/-- The number of project modules whose path is not yet in `seen`: the
quantity that shrinks along every recursive call chain. -/
def numUnseen (proj : Project) (seen : List String) : Nat :=
  (proj.modules.filter fun m => decide (¬ m.path ∈ seen)).length

theorem numUnseen_mono (proj : Project) (seen seen' : List String)
    (h : ∀ x, x ∈ seen → x ∈ seen') :
    numUnseen proj seen' ≤ numUnseen proj seen := by
  apply length_filter_le_of_imp
  intro m hm
  simp only [decide_eq_true_eq] at hm ⊢
  exact fun hmem => hm (h _ hmem)

theorem numUnseen_append_lt (proj : Project) (seen : List String) (sf : Module)
    (hmem : sf ∈ proj.modules) (hnot : ¬ sf.path ∈ seen) :
    numUnseen proj (seen ++ [sf.path]) < numUnseen proj seen := by
  have himp : ∀ x : Module,
      decide (¬ x.path ∈ seen ++ [sf.path]) = true →
      decide (¬ x.path ∈ seen) = true := by
    intro x hx
    simp only [decide_eq_true_eq, List.mem_append] at hx ⊢
    exact fun hmemx => hx (Or.inl hmemx)
  exact length_filter_lt_of_imp _ _ _ himp sf hmem
    (by simpa using hnot) (by simp)

theorem resolveExportTarget_mem (proj : Project) (fromPath : String)
    (d : ExportDecl) (t : Module) (h : resolveExportTarget proj fromPath d = some t) :
    t ∈ proj.modules := by
  unfold resolveExportTarget at h
  cases hms : d.moduleSpecifier with
  | none => rw [hms] at h; simp at h
  | some spec =>
    rw [hms] at h
    simp only [Option.bind_eq_some] at h
    obtain ⟨p, _, hfind⟩ := h
    exact List.mem_of_find?_eq_some hfind

theorem reExportDeclsLoop_seen_ext (proj : Project)
    (recur : Module → List String → Option (ExportMap × List String))
    (sfPath : String)
    (hrec : ∀ t seen res, recur t seen = some res → ∃ ext, res.2 = seen ++ ext) :
    ∀ (ds : List ExportDecl) (seen : List String) (acc : ExportMap)
      (res : ExportMap × List String),
      reExportDeclsLoop proj recur sfPath ds seen acc = some res →
      ∃ ext, res.2 = seen ++ ext := by
  intro ds
  induction ds with
  | nil =>
    intro seen acc res h
    simp only [reExportDeclsLoop] at h
    cases h
    exact ⟨[], by simp⟩
  | cons d ds ih =>
    intro seen acc res h
    simp only [reExportDeclsLoop] at h
    cases htgt : resolveExportTarget proj sfPath d with
    | none =>
      rw [htgt] at h
      exact ih seen acc res h
    | some target =>
      rw [htgt] at h
      by_cases hns : target ∈ [] ∨ d.isNamespaceExport = true
      case pos =>
        rcases hns with hfalse | hns
        · cases hfalse
        · rw [hns] at h
          simp only [if_true] at h
          cases hrecv : recur target seen with
          | none => rw [hrecv] at h; cases h
          | some pr =>
            rw [hrecv] at h
            obtain ⟨ext1, hext1⟩ := hrec target seen pr hrecv
            obtain ⟨ext2, hext2⟩ := ih pr.2 _ res h
            exact ⟨ext1 ++ ext2, by rw [hext2, hext1, List.append_assoc]⟩
      case neg =>
        push_neg at hns
        have hns' := hns.2
        simp only [Bool.not_eq_true] at hns'
        rw [hns'] at h
        simp only [Bool.false_eq_true, if_false] at h
        exact ih seen _ res h

theorem getReExportMapFuel_seen_ext (proj : Project) :
    ∀ (fuel : Nat) (sf : Module) (seen : List String) (res : ExportMap × List String),
      getReExportMapFuel proj fuel sf seen = some res →
      ∃ ext, res.2 = seen ++ ext := by
  intro fuel
  induction fuel with
  | zero => intro sf seen res h; simp [getReExportMapFuel] at h
  | succ fuel ih =>
    intro sf seen res h
    simp only [getReExportMapFuel] at h
    by_cases hmem : sf.path ∈ seen
    · rw [if_pos hmem] at h
      cases h
      exact ⟨[], by simp⟩
    · rw [if_neg hmem] at h
      obtain ⟨ext, hext⟩ :=
        reExportDeclsLoop_seen_ext proj _ sf.path (fun t s r hr => ih t s r hr)
          sf.getExportDeclarations (seen ++ [sf.path]) [] res h
      exact ⟨[sf.path] ++ ext, by rw [hext, List.append_assoc]⟩

theorem reExportDeclsLoop_isSome (proj : Project) (n : Nat)
    (recur : Module → List String → Option (ExportMap × List String))
    (sfPath : String)
    (hrecSome : ∀ t seen, t ∈ proj.modules → numUnseen proj seen < n →
      (recur t seen).isSome = true)
    (hrecExt : ∀ t seen res, recur t seen = some res → ∃ ext, res.2 = seen ++ ext) :
    ∀ (ds : List ExportDecl) (seen : List String) (acc : ExportMap),
      numUnseen proj seen < n →
      (reExportDeclsLoop proj recur sfPath ds seen acc).isSome = true := by
  intro ds
  induction ds with
  | nil => intro seen acc _; simp [reExportDeclsLoop]
  | cons d ds ih =>
    intro seen acc hlt
    simp only [reExportDeclsLoop]
    cases htgt : resolveExportTarget proj sfPath d with
    | none => exact ih seen acc hlt
    | some target =>
      by_cases hns : d.isNamespaceExport = true
      · rw [hns]
        simp only [if_true]
        have htm := resolveExportTarget_mem proj sfPath d target htgt
        have hsome := hrecSome target seen htm hlt
        cases hrecv : recur target seen with
        | none => rw [hrecv] at hsome; simp at hsome
        | some pr =>
          obtain ⟨ext, hext⟩ := hrecExt target seen pr hrecv
          have hle : numUnseen proj pr.2 ≤ numUnseen proj seen := by
            rw [hext]
            exact numUnseen_mono proj seen _ (fun x hx => List.mem_append_left _ hx)
          exact ih pr.2 _ (Nat.lt_of_le_of_lt hle hlt)
      · simp only [Bool.not_eq_true] at hns
        rw [hns]
        simp only [Bool.false_eq_true, if_false]
        exact ih seen _ hlt

theorem getReExportMapFuel_isSome (proj : Project) :
    ∀ (fuel : Nat) (sf : Module) (seen : List String),
      sf ∈ proj.modules → numUnseen proj seen < fuel →
      (getReExportMapFuel proj fuel sf seen).isSome = true := by
  intro fuel
  induction fuel with
  | zero => intro sf seen _ h; omega
  | succ fuel ih =>
    intro sf seen hmem hlt
    simp only [getReExportMapFuel]
    by_cases hseen : sf.path ∈ seen
    · rw [if_pos hseen]; rfl
    · rw [if_neg hseen]
      apply reExportDeclsLoop_isSome proj fuel _ sf.path
        (fun t s ht hn => ih t s ht hn)
        (fun t s r hr => getReExportMapFuel_seen_ext proj fuel t s r hr)
      have := numUnseen_append_lt proj seen sf hmem hseen
      omega

theorem getReExportMapRecursive_isSome (proj : Project) (sf : Module) :
    (getReExportMapRecursive proj sf).isSome = true := by
  have h : (getReExportMapFuel proj (proj.modules.length + 2) sf []).isSome = true := by
    simp only [getReExportMapFuel]
    have hseen : ¬ sf.path ∈ ([] : List String) := by simp
    rw [if_neg hseen]
    apply reExportDeclsLoop_isSome proj (proj.modules.length + 1) _ sf.path
      (fun t s ht hn => getReExportMapFuel_isSome proj _ t s ht hn)
      (fun t s r hr =>
        getReExportMapFuel_seen_ext proj (proj.modules.length + 1) t s r hr)
    have hle : numUnseen proj ([] ++ [sf.path]) ≤ proj.modules.length :=
      List.length_filter_le _ _
    omega
  unfold getReExportMapRecursive
  cases hv : getReExportMapFuel proj (proj.modules.length + 2) sf [] with
  | none => rw [hv] at h; simp at h
  | some res => simp

/-! ## Concrete re-export cycle (A and B namespace-re-export each other) -/

def cycC : Module := ⟨"/CC", [.other], []⟩

def cycA : Module :=
  ⟨"/CA",
    [.exportDecl ⟨some "./c", false, [⟨"x", none⟩]⟩,
     .exportDecl ⟨some "./b", true, []⟩], []⟩

def cycB : Module :=
  ⟨"/CB",
    [.exportDecl ⟨some "./c", false, [⟨"y", none⟩]⟩,
     .exportDecl ⟨some "./a", true, []⟩], []⟩

def projCyc : Project where
  modules := [cycA, cycB, cycC]
  resolveExportSpecifier := fun fromP sp =>
    if sp = "./c" then some "/CC"
    else if fromP = "/CA" && sp = "./b" then some "/CB"
    else if fromP = "/CB" && sp = "./a" then some "/CA" else none
  resolveImportSpecifier := fun _ _ => none
  exportedDeclPath := fun _ _ => none
  defaultExportPath := fun _ => none
  pathResolve := id
  relative := fun _ t => t
  paths := []

/-- Claim C3: the Export Map Builder terminates on every re-export graph,
including cyclic ones.  A module already in the current call chain's
`seen` set yields an empty map for that branch without an error; the
builder's result is defined (`isSome`) for every project and module; and
on the concrete two-sided cycle (`/CA` namespace-re-exports `/CB` and vice
versa, each also re-exporting one named symbol from `/CC`) each side
receives exactly the symbols resolvable without traversing the cycle
twice. -/
theorem claim_C3 (proj : Project) (fuel : Nat) (sf : Module) (seen : List String)
    (h : sf.path ∈ seen) :
    getReExportMapFuel proj (fuel + 1) sf seen = some ([], seen) ∧
    (∀ (p : Project) (m : Module), (getReExportMapRecursive p m).isSome = true) ∧
    getReExportMapRecursive projCyc cycA =
      some [("x", ⟨"x", "/CC"⟩), ("y", ⟨"y", "/CC"⟩)] ∧
    getReExportMapRecursive projCyc cycB =
      some [("y", ⟨"y", "/CC"⟩), ("x", ⟨"x", "/CC"⟩)] := by
  refine ⟨?_, getReExportMapRecursive_isSome, by decide, by decide⟩
  simp [getReExportMapFuel, h]

/-- Witness for C3 at a concrete input: the module `/CA` is already in the
visiting set, so its branch yields the empty map, and the cycle facts
hold. -/
theorem claim_C3_witness :
    getReExportMapFuel projCyc 3 cycA ["/CA"] = some ([], ["/CA"]) ∧
    (∀ (p : Project) (m : Module), (getReExportMapRecursive p m).isSome = true) ∧
    getReExportMapRecursive projCyc cycA =
      some [("x", ⟨"x", "/CC"⟩), ("y", ⟨"y", "/CC"⟩)] ∧
    getReExportMapRecursive projCyc cycB =
      some [("y", ⟨"y", "/CC"⟩), ("x", ⟨"x", "/CC"⟩)] :=
  claim_C3 projCyc 2 cycA ["/CA"] (by decide)

/-! ## Provenance of export map entries (claim C1)

Every entry of a computed re-export map is produced by the named
(non-namespace) branch of the builder: its `resolvedPath` is the resolved
immediate target of some named re-export clause, not necessarily the
module where the symbol is concretely declared.  Namespace re-exports only
merge entries already built. -/

def namedProvenance (proj : Project) (root : Module) (k : String)
    (e : ExportEntry) : Prop :=
  ∃ m, (m ∈ proj.modules ∨ m = root) ∧
    ∃ d ∈ m.getExportDeclarations, d.isNamespaceExport = false ∧
      ∃ t, resolveExportTarget proj m.path d = some t ∧ t.path = e.resolvedPath ∧
        ∃ sp ∈ d.namedExports, sp.nameNode = e.localName ∧ exportedNameOfSpec sp = k

theorem namedProvenance_mono (proj : Project) (t root : Module) (k : String)
    (e : ExportEntry) (ht : t ∈ proj.modules)
    (h : namedProvenance proj t k e) : namedProvenance proj root k e := by
  obtain ⟨m, hm, rest⟩ := h
  refine ⟨m, Or.inl ?_, rest⟩
  rcases hm with hm | hm
  · exact hm
  · rw [hm]; exact ht

theorem mem_mapSet {α : Type} (m : List (String × α)) (k : String) (v : α)
    (kv : String × α) (h : kv ∈ mapSet m k v) : kv = (k, v) ∨ kv ∈ m := by
  induction m with
  | nil => simpa [mapSet] using h
  | cons hd tl ih =>
    simp only [mapSet] at h
    by_cases hk : hd.1 = k
    · rw [if_pos hk] at h
      rcases List.mem_cons.1 h with h | h
      · exact Or.inl h
      · exact Or.inr (List.mem_cons_of_mem _ h)
    · rw [if_neg hk] at h
      rcases List.mem_cons.1 h with h | h
      · exact Or.inr (h ▸ List.mem_cons_self _ _)
      · rcases ih h with h | h
        · exact Or.inl h
        · exact Or.inr (List.mem_cons_of_mem _ h)

theorem mem_foldl_mapSet_named (tpath : String) :
    ∀ (sps : List NamedExportSpec) (acc : ExportMap) (kv : String × ExportEntry),
      kv ∈ sps.foldl
        (fun m sp => mapSet m (exportedNameOfSpec sp) ⟨sp.nameNode, tpath⟩) acc →
      kv ∈ acc ∨ ∃ sp ∈ sps, kv = (exportedNameOfSpec sp, ⟨sp.nameNode, tpath⟩) := by
  intro sps
  induction sps with
  | nil => intro acc kv h; exact Or.inl h
  | cons sp sps ih =>
    intro acc kv h
    simp only [List.foldl_cons] at h
    rcases ih _ kv h with h | ⟨sp', hsp', hkv⟩
    · rcases mem_mapSet _ _ _ _ h with h | h
      · exact Or.inr ⟨sp, List.mem_cons_self _ _, h⟩
      · exact Or.inl h
    · exact Or.inr ⟨sp', List.mem_cons_of_mem _ hsp', hkv⟩

theorem mem_foldl_mapSet_merge :
    ∀ (nested : ExportMap) (acc : ExportMap) (kv : String × ExportEntry),
      kv ∈ nested.foldl (fun m p => mapSet m p.1 p.2) acc →
      kv ∈ acc ∨ kv ∈ nested := by
  intro nested
  induction nested with
  | nil => intro acc kv h; exact Or.inl h
  | cons hd tl ih =>
    intro acc kv h
    simp only [List.foldl_cons] at h
    rcases ih _ kv h with h | h
    · rcases mem_mapSet _ _ _ _ h with h | h
      · exact Or.inr (by rw [h]; exact List.mem_cons_self _ _)
      · exact Or.inl h
    · exact Or.inr (List.mem_cons_of_mem _ h)

theorem reExportDeclsLoop_prov (proj : Project)
    (recur : Module → List String → Option (ExportMap × List String))
    (sfM : Module)
    (hrec : ∀ t seen res, t ∈ proj.modules → recur t seen = some res →
      ∀ kv ∈ res.1, namedProvenance proj t kv.1 kv.2) :
    ∀ (ds : List ExportDecl) (seen : List String) (acc : ExportMap)
      (res : ExportMap × List String),
      (∀ d ∈ ds, d ∈ sfM.getExportDeclarations) →
      (∀ kv ∈ acc, namedProvenance proj sfM kv.1 kv.2) →
      reExportDeclsLoop proj recur sfM.path ds seen acc = some res →
      ∀ kv ∈ res.1, namedProvenance proj sfM kv.1 kv.2 := by
  intro ds
  induction ds with
  | nil =>
    intro seen acc res _ hacc h
    simp only [reExportDeclsLoop] at h
    cases h
    exact hacc
  | cons d ds ih =>
    intro seen acc res hds hacc h
    have hdmem : d ∈ sfM.getExportDeclarations := hds d (List.mem_cons_self _ _)
    have hds' : ∀ d' ∈ ds, d' ∈ sfM.getExportDeclarations :=
      fun d' hd' => hds d' (List.mem_cons_of_mem _ hd')
    simp only [reExportDeclsLoop] at h
    cases htgt : resolveExportTarget proj sfM.path d with
    | none =>
      rw [htgt] at h
      exact ih seen acc res hds' hacc h
    | some target =>
      rw [htgt] at h
      by_cases hns : d.isNamespaceExport = true
      · rw [hns] at h
        simp only [if_true] at h
        cases hrecv : recur target seen with
        | none => rw [hrecv] at h; cases h
        | some pr =>
          rw [hrecv] at h
          have htm := resolveExportTarget_mem proj sfM.path d target htgt
          apply ih _ _ res hds' _ h
          intro kv hkv
          rcases mem_foldl_mapSet_merge pr.1 acc kv hkv with hkv | hkv
          · exact hacc kv hkv
          · exact namedProvenance_mono proj target sfM kv.1 kv.2 htm
              (hrec target seen pr htm hrecv kv hkv)
      · simp only [Bool.not_eq_true] at hns
        rw [hns] at h
        simp only [Bool.false_eq_true, if_false] at h
        apply ih _ _ res hds' _ h
        intro kv hkv
        rcases mem_foldl_mapSet_named target.path d.namedExports acc kv hkv with
          hkv | ⟨sp, hsp, hkv⟩
        · exact hacc kv hkv
        · refine ⟨sfM, Or.inr rfl, d, hdmem, hns, target, htgt, ?_⟩
          rw [hkv]
          exact ⟨rfl, sp, hsp, rfl, rfl⟩

theorem getReExportMapFuel_prov (proj : Project) :
    ∀ (fuel : Nat) (sf : Module) (seen : List String) (res : ExportMap × List String),
      getReExportMapFuel proj fuel sf seen = some res →
      ∀ kv ∈ res.1, namedProvenance proj sf kv.1 kv.2 := by
  intro fuel
  induction fuel with
  | zero => intro sf seen res h; simp [getReExportMapFuel] at h
  | succ fuel ih =>
    intro sf seen res h
    simp only [getReExportMapFuel] at h
    by_cases hseen : sf.path ∈ seen
    · rw [if_pos hseen] at h
      cases h
      intro kv hkv
      cases hkv
    · rw [if_neg hseen] at h
      exact reExportDeclsLoop_prov proj _ sf
        (fun t s r ht hr => ih t s r hr)
        sf.getExportDeclarations (seen ++ [sf.path]) [] res
        (fun d hd => hd) (fun kv hkv => by cases hkv) h

/-! ## Concrete named re-export chain (claim C1 counterexample)

`/A` re-exports `x` from `/B` with a named clause; `/B` itself re-exports
`x` from `/C`, where the symbol is concretely declared.  The export map of
`/A` records `/B` — an intermediate re-exporting barrel — as the entry's
defining module. -/

def c1C : Module := ⟨"/C", [.other], []⟩

def c1B : Module := ⟨"/B", [.exportDecl ⟨some "./C", false, [⟨"x", none⟩]⟩], []⟩

def c1A : Module := ⟨"/A", [.exportDecl ⟨some "./B", false, [⟨"x", none⟩]⟩], []⟩

def projC1 : Project where
  modules := [c1A, c1B, c1C]
  resolveExportSpecifier := fun fromP sp =>
    if fromP = "/A" && sp = "./B" then some "/B"
    else if fromP = "/B" && sp = "./C" then some "/C" else none
  resolveImportSpecifier := fun _ _ => none
  exportedDeclPath := fun p n =>
    if (p = "/A" || p = "/B") && n = "x" then some "/C" else none
  defaultExportPath := fun _ => none
  pathResolve := id
  relative := fun _ t => t
  paths := []

/-- Claim C1 counterexample: in `projC1` the export map of `/A` maps `x`
to defining module `/B`, yet `/B` is itself a re-exporting barrel (its
only statement is a named re-export forwarding `x` to `/C`), and the
compiler's own symbol resolution places the concrete declaration of `x`
in `/C`.  Entries produced by named re-export clauses whose immediate
target is itself a barrel are therefore not flattened transitively. -/
theorem claim_C1_counterexample :
    getReExportMapRecursive projC1 c1A = some [("x", ⟨"x", "/B"⟩)] ∧
    c1B.getExportDeclarations = [⟨some "./C", false, [⟨"x", none⟩]⟩] ∧
    resolveExportTarget projC1 "/B" ⟨some "./C", false, [⟨"x", none⟩]⟩ = some c1C ∧
    projC1.exportedDeclPath "/A" "x" = some "/C" := by
  refine ⟨by decide, by decide, ?_, by decide⟩
  decide

/-- Claim C1, amended: every entry of the recursive export map records as
`resolvedPath` the resolved immediate target of the named (non-namespace)
re-export clause that produced it — entries reached through namespace
(`export *`) chains keep their nested resolution, but a named clause whose
immediate target is itself a barrel contributes that intermediate barrel's
path, not the module where the symbol is concretely declared. -/
theorem claim_C1_amended (proj : Project) (sf : Module) (res : ExportMap)
    (h : getReExportMapRecursive proj sf = some res) :
    ∀ kv ∈ res, namedProvenance proj sf kv.1 kv.2 := by
  unfold getReExportMapRecursive at h
  cases hv : getReExportMapFuel proj (proj.modules.length + 2) sf [] with
  | none => rw [hv] at h; cases h
  | some pr =>
    rw [hv] at h
    simp only [Option.map_some'] at h
    cases h
    exact getReExportMapFuel_prov proj _ sf [] pr hv

/-- Witness for the amended C1 at a concrete input: the single entry of
`/A`'s map is produced by `/A`'s own named clause targeting `/B`. -/
theorem claim_C1_amended_witness :
    namedProvenance projC1 c1A "x" ⟨"x", "/B"⟩ := by
  have h := claim_C1_amended projC1 c1A [("x", ⟨"x", "/B"⟩)] (by decide)
  exact h ("x", ⟨"x", "/B"⟩) (List.mem_singleton.2 rfl)

/-! ## Alias Resolver characterization (claim C7) -/

/-- The specifier one alias-table entry would produce for `resolvedPath`:
`some` when the entry's first base prefix matches, `none` when it does not
match or the entry has no base paths. -/
def entrySpecOf (pathResolve : String → String) (resolvedPath : String)
    (kv : String × List String) : Option String :=
  match kv.2 with
  | [] => none
  | base :: _ =>
    let absolute := pathResolve (jsReplaceFirst base "/*" "")
    if jsStartsWith resolvedPath absolute then
      some (slashNormalize (stripTsExt
        (jsReplaceFirst resolvedPath absolute (jsReplaceFirst kv.1 "/*" ""))))
    else none

theorem resolveAlias_none (pathResolve : String → String) (resolvedPath : String) :
    ∀ (paths : List (String × List String)),
      (∀ kv ∈ paths, entrySpecOf pathResolve resolvedPath kv = none) →
      resolveAlias pathResolve paths resolvedPath = none := by
  intro paths
  induction paths with
  | nil => intro _; rfl
  | cons kv rest ih =>
    intro h
    have hkv := h kv (List.mem_cons_self _ _)
    have hrest : resolveAlias pathResolve rest resolvedPath = none :=
      ih fun kv' hkv' => h kv' (List.mem_cons_of_mem _ hkv')
    obtain ⟨aliasKey, basePaths⟩ := kv
    cases basePaths with
    | nil => exact hrest
    | cons base bs =>
      simp only [entrySpecOf] at hkv
      unfold resolveAlias resolveAliasLoop
      by_cases hpre : jsStartsWith resolvedPath
          (pathResolve (jsReplaceFirst base "/*" "")) = true
      · rw [if_pos hpre] at hkv; cases hkv
      · simp only [Bool.not_eq_true] at hpre
        simp only [hpre, Bool.false_eq_true, if_false]
        exact hrest

theorem resolveAlias_first_match (pathResolve : String → String)
    (resolvedPath : String) :
    ∀ (pre : List (String × List String)) (kv : String × List String)
      (post : List (String × List String)) (s : String),
      (∀ kv' ∈ pre, entrySpecOf pathResolve resolvedPath kv' = none) →
      entrySpecOf pathResolve resolvedPath kv = some s →
      resolveAlias pathResolve (pre ++ kv :: post) resolvedPath = some s := by
  intro pre
  induction pre with
  | nil =>
    intro kv post s _ hkv
    obtain ⟨aliasKey, basePaths⟩ := kv
    cases basePaths with
    | nil => simp [entrySpecOf] at hkv
    | cons base bs =>
      simp only [entrySpecOf] at hkv
      unfold resolveAlias resolveAliasLoop
      by_cases hpre : jsStartsWith resolvedPath
          (pathResolve (jsReplaceFirst base "/*" "")) = true
      · rw [if_pos hpre] at hkv
        simp only [List.nil_append]
        rw [if_pos hpre]
        exact hkv
      · rw [if_neg hpre] at hkv; cases hkv
  | cons e pre ih =>
    intro kv post s hpre hkv
    have hrest := ih kv post s
      (fun kv' hkv' => hpre kv' (List.mem_cons_of_mem _ hkv')) hkv
    have he := hpre e (List.mem_cons_self _ _)
    obtain ⟨aliasKey, basePaths⟩ := e
    cases basePaths with
    | nil =>
      show resolveAliasLoop pathResolve resolvedPath _ = some s
      exact hrest
    | cons base bs =>
      simp only [entrySpecOf] at he
      by_cases hm : jsStartsWith resolvedPath
          (pathResolve (jsReplaceFirst base "/*" "")) = true
      · rw [if_pos hm] at he; cases he
      · show resolveAliasLoop pathResolve resolvedPath _ = some s
        simp only [List.cons_append, resolveAliasLoop]
        simp only [Bool.not_eq_true] at hm
        simp only [hm, Bool.false_eq_true, if_false]
        exact hrest

/-- Claim C7, amended: `resolveAlias` returns the specifier derived from
the first alias-table entry (in configuration iteration order) whose first
base prefix is a prefix of the path — not necessarily the shortest
matching specifier — with the source extension stripped and separators
normalized (all folded into `entrySpecOf`); it returns `null` when no
entry matches. -/
theorem claim_C7_amended (pathResolve : String → String) (resolvedPath : String)
    (pre : List (String × List String)) (kv : String × List String)
    (post : List (String × List String)) (s : String)
    (hpre : ∀ kv' ∈ pre, entrySpecOf pathResolve resolvedPath kv' = none)
    (hkv : entrySpecOf pathResolve resolvedPath kv = some s) :
    resolveAlias pathResolve (pre ++ kv :: post) resolvedPath = some s ∧
    (∀ (paths : List (String × List String)),
      (∀ kv' ∈ paths, entrySpecOf pathResolve resolvedPath kv' = none) →
      resolveAlias pathResolve paths resolvedPath = none) :=
  ⟨resolveAlias_first_match pathResolve resolvedPath pre kv post s hpre hkv,
   resolveAlias_none pathResolve resolvedPath⟩

/-- Witness for the amended C7: with two matching entries the first
declared one wins even though the second would produce a shorter
specifier, and a non-matching table yields `null`. -/
theorem claim_C7_amended_witness :
    resolveAlias id ([] ++ ("@averylongalias/*", ["/src"]) ::
        [("@s/*", ["/src"])]) "/src/button.ts" = some "@averylongalias/button" ∧
    (∀ (paths : List (String × List String)),
      (∀ kv' ∈ paths, entrySpecOf id "/src/button.ts" kv' = none) →
      resolveAlias id paths "/src/button.ts" = none) :=
  claim_C7_amended id "/src/button.ts" [] ("@averylongalias/*", ["/src"])
    [("@s/*", ["/src"])] "@averylongalias/button"
    (by intro kv' hkv'; cases hkv') (by decide)

/-- Claim C7 counterexample: the alias resolver does not return the
shortest matching alias-prefixed specifier.  Both configured entries match
`/src/button.ts`; the second would give the strictly shorter
`@s/button`, but the resolver returns the first entry's
`@averylongalias/button`. -/
theorem claim_C7_counterexample :
    resolveAlias id [("@averylongalias/*", ["/src"]), ("@s/*", ["/src"])]
      "/src/button.ts" = some "@averylongalias/button" ∧
    entrySpecOf id "/src/button.ts" ("@s/*", ["/src"]) = some "@s/button" ∧
    ("@s/button".length < "@averylongalias/button".length) := by
  refine ⟨by decide, by decide, by decide⟩

/-! ## Invariants of the named-import loop of `processImportDeclaration` -/

theorem mapGet_pushNamed_self :
    ∀ (gs : List (String × GroupAcc)) (k : String) (pr : String × String),
      ∃ g, mapGet (pushNamed gs k pr) k = some g ∧ pr ∈ g.named := by
  intro gs
  induction gs with
  | nil =>
    intro k pr
    exact ⟨⟨[pr], none⟩, by simp [pushNamed, mapGet], List.mem_singleton.2 rfl⟩
  | cons kv rest ih =>
    intro k pr
    by_cases hk : kv.1 = k
    · refine ⟨⟨kv.2.named ++ [pr], kv.2.defaultImport⟩, ?_, ?_⟩
      · simp [pushNamed, hk, mapGet]
      · exact List.mem_append_right _ (List.mem_singleton.2 rfl)
    · obtain ⟨g, hg, hpr⟩ := ih k pr
      refine ⟨g, ?_, hpr⟩
      simp only [pushNamed, hk, if_false, mapGet]
      exact hg

theorem mapGet_pushNamed_preserve :
    ∀ (gs : List (String × GroupAcc)) (k : String) (pr : String × String)
      (spec : String) (g : GroupAcc) (pr0 : String × String),
      mapGet gs spec = some g → pr0 ∈ g.named →
      ∃ g', mapGet (pushNamed gs k pr) spec = some g' ∧ pr0 ∈ g'.named := by
  intro gs
  induction gs with
  | nil => intro k pr spec g pr0 hg; cases hg
  | cons kv rest ih =>
    intro k pr spec g pr0 hg hpr0
    simp only [mapGet] at hg
    by_cases hk : kv.1 = k
    · simp only [pushNamed, hk, if_true, mapGet]
      by_cases hs : kv.1 = spec
      · rw [if_pos (hk ▸ hs)]
        rw [if_pos hs] at hg
        cases hg
        exact ⟨_, rfl, List.mem_append_left _ hpr0⟩
      · rw [if_neg (hk ▸ hs)]
        rw [if_neg hs] at hg
        exact ⟨g, hg, hpr0⟩
    · simp only [pushNamed, hk, if_false, mapGet]
      by_cases hs : kv.1 = spec
      · rw [if_pos hs] at hg
        cases hg
        rw [if_pos hs]
        exact ⟨kv.2, rfl, hpr0⟩
      · rw [if_neg hs]
        rw [if_neg hs] at hg
        exact ih k pr spec g pr0 hg hpr0

/-- A pair already recorded in the `rewrittenBySpecifier` map survives any
later iteration of the named-import loop. -/
theorem processNamedImport_pair_preserve (proj : Project)
    (barrelPath selfPath moduleSpecifier : String) (rm : ExportMap)
    (st : ProcState) (ni : NamedImportSpec) (spec : String) (g : GroupAcc)
    (pr0 : String × String)
    (hg : mapGet st.rewritten spec = some g) (hpr0 : pr0 ∈ g.named) :
    ∃ g', mapGet (processNamedImport proj barrelPath selfPath moduleSpecifier
        rm st ni).rewritten spec = some g' ∧ pr0 ∈ g'.named := by
  unfold processNamedImport
  cases proj.exportedDeclPath barrelPath ni.name with
  | none => exact ⟨g, hg, hpr0⟩
  | some resolvedFile =>
    by_cases hr : computeResolved proj selfPath resolvedFile = moduleSpecifier
    · simp only [hr, if_true]
      exact ⟨g, hg, hpr0⟩
    · simp only [hr, if_false]
      exact mapGet_pushNamed_preserve st.rewritten _ _ spec g pr0 hg hpr0

theorem processNamedImport_changed_mono (proj : Project)
    (barrelPath selfPath moduleSpecifier : String) (rm : ExportMap)
    (st : ProcState) (ni : NamedImportSpec) (h : st.changed = true) :
    (processNamedImport proj barrelPath selfPath moduleSpecifier rm st ni).changed
      = true := by
  unfold processNamedImport
  cases proj.exportedDeclPath barrelPath ni.name with
  | none => exact h
  | some resolvedFile =>
    by_cases hr : computeResolved proj selfPath resolvedFile = moduleSpecifier
    · simp only [hr, if_true]
      exact h
    · simp only [hr, if_false]

theorem processNamedImport_kept_mono (proj : Project)
    (barrelPath selfPath moduleSpecifier : String) (rm : ExportMap)
    (st : ProcState) (ni : NamedImportSpec) (x : NamedImportSpec)
    (h : x ∈ st.keptNamed) :
    x ∈ (processNamedImport proj barrelPath selfPath moduleSpecifier
        rm st ni).keptNamed := by
  unfold processNamedImport
  cases proj.exportedDeclPath barrelPath ni.name with
  | none => exact List.mem_append_left _ h
  | some resolvedFile =>
    by_cases hr : computeResolved proj selfPath resolvedFile = moduleSpecifier
    · simp only [hr, if_true]
      exact List.mem_append_left _ h
    · simp only [hr, if_false]
      exact h

/-- Invariant carried over the tail of the named-import loop: the flag is
set, the pair is recorded, or a kept binding is present. -/
theorem namedLoop_preserve (proj : Project)
    (barrelPath selfPath moduleSpecifier : String) (rm : ExportMap) :
    ∀ (l : List NamedImportSpec) (st : ProcState),
      (∀ spec g pr0, mapGet st.rewritten spec = some g → pr0 ∈ g.named →
        ∃ g', mapGet (l.foldl (processNamedImport proj barrelPath selfPath
            moduleSpecifier rm) st).rewritten spec = some g' ∧ pr0 ∈ g'.named) ∧
      (st.changed = true →
        (l.foldl (processNamedImport proj barrelPath selfPath moduleSpecifier rm)
          st).changed = true) ∧
      (∀ x ∈ st.keptNamed,
        x ∈ (l.foldl (processNamedImport proj barrelPath selfPath moduleSpecifier
          rm) st).keptNamed) := by
  intro l
  induction l with
  | nil => intro st; exact ⟨fun spec g pr0 hg hpr => ⟨g, hg, hpr⟩, fun h => h, fun x hx => hx⟩
  | cons ni l ih =>
    intro st
    obtain ⟨ihp, ihc, ihk⟩ := ih (processNamedImport proj barrelPath selfPath
      moduleSpecifier rm st ni)
    refine ⟨?_, ?_, ?_⟩
    · intro spec g pr0 hg hpr
      obtain ⟨g', hg', hpr'⟩ := processNamedImport_pair_preserve proj barrelPath
        selfPath moduleSpecifier rm st ni spec g pr0 hg hpr
      exact ihp spec g' pr0 hg' hpr'
    · intro h
      exact ihc (processNamedImport_changed_mono proj barrelPath selfPath
        moduleSpecifier rm st ni h)
    · intro x hx
      exact ihk x (processNamedImport_kept_mono proj barrelPath selfPath
        moduleSpecifier rm st ni x hx)

/-- The named-import loop step at a binding whose symbol resolves to file
`f` and whose re-export-map entry matches `f`: the pair
`(localName, usedName)` is pushed under the computed specifier and the
changed flag is set. -/
theorem processNamedImport_records (proj : Project)
    (barrelPath selfPath moduleSpecifier : String) (rm : ExportMap)
    (st : ProcState) (ni : NamedImportSpec) (f ln : String)
    (hf : proj.exportedDeclPath barrelPath ni.name = some f)
    (hrm : mapGet rm ni.name = some ⟨ln, f⟩)
    (hdiff : ¬ computeResolved proj selfPath f = moduleSpecifier) :
    (∃ g, mapGet (processNamedImport proj barrelPath selfPath moduleSpecifier
        rm st ni).rewritten (computeResolved proj selfPath f) = some g ∧
        (ln, jsOrStr ni.aliasNode ni.name) ∈ g.named) ∧
    (processNamedImport proj barrelPath selfPath moduleSpecifier
        rm st ni).changed = true := by
  unfold processNamedImport
  rw [hf]
  simp only [hrm, hdiff, if_false, eq_self_iff_true, if_true]
  exact ⟨mapGet_pushNamed_self st.rewritten _ _, trivial⟩

/-- Claim C2: a named binding `{importedName as localAlias}` that is
rewritten to the module `f` declaring the symbol under `localName` (the
matching export-map entry) is recorded as the pair
`(localName, usedName)` under the resolved specifier, where `usedName` is
the original alias when present and `importedName` itself otherwise; and
any emitted import renders such a pair as `{localName as usedName}` when
the two differ and plain `{localName}` when they coincide. -/
theorem claim_C2 (proj : Project) (barrel : Module) (selfPath : String)
    (imp : ImportDecl) (rm : ExportMap) (ni : NamedImportSpec) (f ln : String)
    (hni : ni ∈ imp.namedImports)
    (hf : proj.exportedDeclPath barrel.path ni.name = some f)
    (hrm : mapGet rm ni.name = some ⟨ln, f⟩)
    (hdiff : ¬ computeResolved proj selfPath f = imp.moduleSpecifier) :
    (∃ g, mapGet (processImportDeclaration proj barrel selfPath imp
        rm).rewrittenImports (computeResolved proj selfPath f) = some g ∧
        (ln, jsOrStr ni.aliasNode ni.name) ∈ g.named) ∧
    (∀ (spec : String) (gr : GroupAcc),
      (ln, jsOrStr ni.aliasNode ni.name) ∈ gr.named →
      (if ln = jsOrStr ni.aliasNode ni.name then (⟨ln, none⟩ : NamedImportSpec)
       else ⟨ln, some (jsOrStr ni.aliasNode ni.name)⟩) ∈
        (groupToImportDecl spec gr).namedImports) := by
  constructor
  · obtain ⟨l1, l2, hsplit⟩ := List.append_of_mem hni
    have hmain : (∃ g, mapGet (processState proj barrel selfPath imp rm).rewritten
        (computeResolved proj selfPath f) = some g ∧
        (ln, jsOrStr ni.aliasNode ni.name) ∈ g.named) ∧
        (processState proj barrel selfPath imp rm).changed = true := by
      unfold processState
      rw [hsplit, List.foldl_append, List.foldl_cons]
      set st1 := List.foldl (processNamedImport proj barrel.path selfPath
        imp.moduleSpecifier rm)
        (processDefaultImport proj barrel.path selfPath imp.moduleSpecifier
          imp.defaultImport) l1 with hst1
      obtain ⟨⟨g, hg, hpr⟩, hch⟩ := processNamedImport_records proj barrel.path
        selfPath imp.moduleSpecifier rm st1 ni f ln hf hrm hdiff
      obtain ⟨hp, hc, _⟩ := namedLoop_preserve proj barrel.path selfPath
        imp.moduleSpecifier rm l2
        (processNamedImport proj barrel.path selfPath imp.moduleSpecifier rm st1 ni)
      exact ⟨hp _ g _ hg hpr, hc hch⟩
    obtain ⟨⟨g, hg, hpr⟩, hch⟩ := hmain
    unfold processImportDeclaration
    simp only [hch, if_true]
    exact ⟨g, hg, hpr⟩
  · intro spec gr hmem
    unfold groupToImportDecl
    exact List.mem_map_of_mem _ hmem

/-- Witness material for C2/C6: a barrel `/b.ts` re-exporting `z` as `x`
from `/m.ts`, imported from `/app.ts`. -/
def projW2 : Project where
  modules := []
  resolveExportSpecifier := fun _ _ => none
  resolveImportSpecifier := fun _ _ => none
  exportedDeclPath := fun p n => if p = "/b.ts" && n = "x" then some "/m.ts" else none
  defaultExportPath := fun _ => none
  pathResolve := id
  relative := fun _ _ => "m.ts"
  paths := []

def barrelW2 : Module :=
  ⟨"/b.ts", [.exportDecl ⟨some "./m", false, [⟨"z", some "x"⟩]⟩], []⟩

def rmW2 : ExportMap := [("x", ⟨"z", "/m.ts"⟩)]

def impW2 : ImportDecl := ⟨"./b", none, [⟨"x", some "y"⟩]⟩

/-- Witness for C2: `import { x as y } from './b'` against a barrel whose
map sends `x` to `z` declared in `/m.ts` records the pair `(z, y)` under
`./m`. -/
theorem claim_C2_witness :
    (∃ g, mapGet (processImportDeclaration projW2 barrelW2 "/app.ts" impW2
        rmW2).rewrittenImports (computeResolved projW2 "/app.ts" "/m.ts") = some g ∧
        ("z", jsOrStr (some "y") "x") ∈ g.named) ∧
    (∀ (spec : String) (gr : GroupAcc),
      ("z", jsOrStr (some "y") "x") ∈ gr.named →
      (if "z" = jsOrStr (some "y") "x" then (⟨"z", none⟩ : NamedImportSpec)
       else ⟨"z", some (jsOrStr (some "y") "x")⟩) ∈
        (groupToImportDecl spec gr).namedImports) :=
  claim_C2 projW2 barrelW2 "/app.ts" impW2 rmW2 ⟨"x", some "y"⟩ "/m.ts" "z"
    (by decide) (by decide) (by decide) (by decide)

/-- Claim C6: a named binding whose imported name is absent from the
target's resolved exports is kept (no error), and the residual import
emitted under the original specifier retains exactly the kept bindings and
exists only when that set is non-empty. -/
theorem claim_C6 (proj : Project) (barrel : Module) (selfPath : String)
    (imp : ImportDecl) (rm : ExportMap) (ni : NamedImportSpec)
    (hni : ni ∈ imp.namedImports)
    (hnf : proj.exportedDeclPath barrel.path ni.name = none) :
    ni ∈ (processState proj barrel selfPath imp rm).keptNamed ∧
    (∀ kept, (processImportDeclaration proj barrel selfPath imp rm).residual
        = some kept →
      kept ≠ [] ∧ kept = (processState proj barrel selfPath imp rm).keptNamed) := by
  constructor
  · obtain ⟨l1, l2, hsplit⟩ := List.append_of_mem hni
    unfold processState
    rw [hsplit, List.foldl_append, List.foldl_cons]
    set st1 := List.foldl (processNamedImport proj barrel.path selfPath
      imp.moduleSpecifier rm)
      (processDefaultImport proj barrel.path selfPath imp.moduleSpecifier
        imp.defaultImport) l1 with hst1
    have hstep : ni ∈ (processNamedImport proj barrel.path selfPath
        imp.moduleSpecifier rm st1 ni).keptNamed := by
      unfold processNamedImport
      rw [hnf]
      exact List.mem_append_right _ (List.mem_singleton.2 rfl)
    exact (namedLoop_preserve proj barrel.path selfPath imp.moduleSpecifier rm
      l2 _).2.2 ni hstep
  · intro kept hres
    unfold processImportDeclaration at hres
    by_cases hc : (processState proj barrel selfPath imp rm).changed = true
    · simp only [hc, if_true] at hres
      by_cases he : (processState proj barrel selfPath imp rm).keptNamed.isEmpty
          = true
      · simp only [he, if_true] at hres
        cases hres
      · simp only [he, Bool.false_eq_true, if_false] at hres
        cases hres
        constructor
        · intro hnil
          rw [hnil] at he
          simp at he
        · rfl
    · simp only [Bool.not_eq_true] at hc
      simp only [hc, Bool.false_eq_true, if_false] at hres
      cases hres

def impW6 : ImportDecl := ⟨"./b", none, [⟨"nope", none⟩, ⟨"x", some "y"⟩]⟩

/-- Witness for C6: in `import { nope, x as y } from './b'` the symbol
`nope` is not among the barrel's resolved exports; it is kept and the
residual import retains exactly the kept set. -/
theorem claim_C6_witness :
    (⟨"nope", none⟩ : NamedImportSpec) ∈
      (processState projW2 barrelW2 "/app.ts" impW6 rmW2).keptNamed ∧
    (∀ kept, (processImportDeclaration projW2 barrelW2 "/app.ts" impW6
        rmW2).residual = some kept →
      kept ≠ [] ∧ kept = (processState projW2 barrelW2 "/app.ts" impW6
        rmW2).keptNamed) :=
  claim_C6 projW2 barrelW2 "/app.ts" impW6 rmW2 ⟨"nope", none⟩
    (by decide) (by decide)

/-! ## Barrel classification of import targets (claim C5) -/

/-- A module whose single statement is a specifier-less `export { x }`
clause (the symbol `x` is declared and exported by the module itself). -/
def modC5 : Module := ⟨"/X", [.exportDecl ⟨none, false, [⟨"x", none⟩]⟩], []⟩

/-- Claim C5 counterexample: `modC5` contains no export statement with a
module specifier (it only exports its own symbol), yet the barrel test of
`rewriteImportsInFile` — `getExportDeclarations().length > 0` — classifies
it as a barrel candidate. -/
theorem claim_C5_counterexample :
    isBarrelModule modC5 = true ∧
    modC5.getExportDeclarations.all (fun d => d.moduleSpecifier.isNone) = true :=
  ⟨by decide, by decide⟩

/-- Claim C5, amended: a local import is classified as a barrel candidate
iff its resolved target module contains at least one export declaration
statement, with or without a module specifier; a target with no export
declaration statements is non-barrel and its import is left untouched. -/
theorem claim_C5_amended (proj : Project) (selfPath : String) (imp : ImportDecl)
    (m decls : Module)
    (hres : (proj.resolveImportSpecifier selfPath imp.moduleSpecifier).bind
      proj.findModule = some decls)
    (hnb : isBarrelModule decls = false) :
    importChange proj selfPath imp = none ∧
    (isBarrelModule m = true ↔ ∃ d, Statement.exportDecl d ∈ m.statements) := by
  constructor
  · unfold importChange
    by_cases hl : (jsStartsWith imp.moduleSpecifier "." ||
        (aliasPrefixList proj).any fun a => jsStartsWith imp.moduleSpecifier a) = true
    · simp only [hl, Bool.not_true, Bool.false_eq_true, if_false]
      rw [hres]
      simp only [hnb, Bool.false_eq_true, if_false]
    · simp only [Bool.not_eq_true] at hl
      simp only [hl, Bool.not_false, if_true]
  · unfold isBarrelModule
    rw [decide_eq_true_eq]
    rw [List.length_pos_iff_exists_mem]
    constructor
    · rintro ⟨d, hd⟩
      rw [Module.getExportDeclarations, List.mem_filterMap] at hd
      obtain ⟨s, hs, hfd⟩ := hd
      cases s with
      | exportDecl d' =>
        simp only [Option.some_inj] at hfd
        exact ⟨d, by rw [hfd] at hs; exact hs⟩
      | other => cases hfd
    · rintro ⟨d, hd⟩
      refine ⟨d, ?_⟩
      rw [Module.getExportDeclarations, List.mem_filterMap]
      exact ⟨Statement.exportDecl d, hd, rfl⟩

/-- Witness for the amended C5: an import of a module without export
declarations is left untouched, and `modC5` (one specifier-less export
declaration) is classified as a barrel. -/
theorem claim_C5_witness :
    importChange projC1 "/A" ⟨"./C", none, [⟨"x", none⟩]⟩ = none ∧
    (isBarrelModule modC5 = true ↔ ∃ d, Statement.exportDecl d ∈ modC5.statements) :=
  claim_C5_amended
    { projC1 with resolveImportSpecifier := fun fromP sp =>
        if fromP = "/A" && sp = "./C" then some "/C" else none }
    "/A" ⟨"./C", none, [⟨"x", none⟩]⟩ modC5 c1C (by decide) (by decide)

/-! ## Purge partition (claim C8) -/

/-- Claim C8: `isPureBarrel` holds iff the module has at least one
statement and every statement is an export declaration with a (truthy)
module specifier; a module with zero statements is never pure; and the
purge operation's classification assigns exactly one of
pure barrel / impure barrel / not-a-barrel to every module, with the three
labels characterized by the code's own conditions. -/
theorem claim_C8 (m : Module) :
    (isPureBarrelFile m = true ↔
      (0 < m.statements.length ∧ ∀ s ∈ m.statements, isReExportStatement s = true)) ∧
    ((m.statements.isEmpty && isPureBarrelFile m) = false) ∧
    ([BarrelClass.pureBarrel, BarrelClass.impureBarrel, BarrelClass.notBarrel].count
      (classifyBarrel m) = 1) ∧
    (classifyBarrel m = BarrelClass.pureBarrel ↔
      (0 < m.getExportDeclarations.length ∧ isPureBarrelFile m = true)) ∧
    (classifyBarrel m = BarrelClass.impureBarrel ↔
      (0 < m.getExportDeclarations.length ∧ isPureBarrelFile m = false)) ∧
    (classifyBarrel m = BarrelClass.notBarrel ↔
      m.getExportDeclarations.length = 0) := by
  have hpure : isPureBarrelFile m = true ↔
      (0 < m.statements.length ∧ ∀ s ∈ m.statements, isReExportStatement s = true) := by
    unfold isPureBarrelFile
    by_cases hz : m.statements.length = 0
    · simp [hz]
    · rw [if_neg hz]
      rw [List.all_eq_true]
      constructor
      · intro h
        exact ⟨by omega, h⟩
      · intro h
        exact h.2
  refine ⟨hpure, ?_, ?_, ?_, ?_, ?_⟩
  · cases hs : m.statements with
    | nil =>
      have : isPureBarrelFile m = false := by
        unfold isPureBarrelFile
        rw [hs]
        simp
      simp [this]
    | cons a l => simp [List.isEmpty_cons]
  · cases classifyBarrel m <;> rfl
  · unfold classifyBarrel
    by_cases h1 : 0 < m.getExportDeclarations.length
    · rw [if_pos h1]
      by_cases h2 : isPureBarrelFile m = true
      · simp [h1, h2]
      · simp only [Bool.not_eq_true] at h2
        simp [h1, h2]
    · rw [if_neg h1]
      simp [h1]
  · unfold classifyBarrel
    by_cases h1 : 0 < m.getExportDeclarations.length
    · rw [if_pos h1]
      by_cases h2 : isPureBarrelFile m = true
      · simp [h1, h2]
      · simp only [Bool.not_eq_true] at h2
        simp [h1, h2]
    · rw [if_neg h1]
      simp [h1]
  · unfold classifyBarrel
    by_cases h1 : 0 < m.getExportDeclarations.length
    · rw [if_pos h1]
      by_cases h2 : isPureBarrelFile m = true
      · simp only [h2, if_true]
        constructor
        · intro h; cases h
        · intro h; omega
      · simp only [Bool.not_eq_true] at h2
        simp only [h2, Bool.false_eq_true, if_false]
        constructor
        · intro h; cases h
        · intro h; omega
    · rw [if_neg h1]
      simp only [true_iff]
      omega

/-! ## tsconfig absence is non-fatal (claim C9) -/

/-- Claim C9: when the tsconfig file does not exist, the initialization of
`runBarrelBreaker` returns normally (no thrown error) with the warning
flag set, an empty paths table and an empty alias-prefix list. -/
theorem claim_C9 (existsFile : String → Bool)
    (readParse : String → Except String Tsconfig) (tsconfigPath : String)
    (h : existsFile tsconfigPath = false) :
    loadTsconfigInit existsFile readParse tsconfigPath =
      .ok ⟨true, [], []⟩ := by
  unfold loadTsconfigInit
  rw [h]
  simp [tsconfigPathsOf]

/-- Witness for C9 at a concrete input: a filesystem on which the file is
absent and a parser that would fail if consulted. -/
theorem claim_C9_witness :
    loadTsconfigInit (fun _ => false) (fun _ => .error "ENOENT") "tsconfig.json"
      = .ok ⟨true, [], []⟩ :=
  claim_C9 (fun _ => false) (fun _ => .error "ENOENT") "tsconfig.json" rfl

/-! ## Characterization of the per-specifier merge (claim C10) -/

theorem find?_append_match {α : Type} (p : α → Bool) :
    ∀ (l1 l2 : List α), List.find? p (l1 ++ l2) =
      match List.find? p l1 with
      | some x => some x
      | none => List.find? p l2 := by
  intro l1 l2
  induction l1 with
  | nil => rfl
  | cons a l ih =>
    rw [List.cons_append, List.find?_cons, List.find?_cons]
    cases hpa : p a
    · simp only [cond_false]
      exact ih
    · simp only [cond_true]

/-- The value the last `Map.set` for key `n` wrote, if any. -/
def lookupLastPair (pairs : List (String × String)) (n : String) : Option String :=
  (pairs.reverse.find? fun pr => decide (pr.1 = n)).map Prod.snd

theorem mapGet_mapSet {α : Type} :
    ∀ (m : List (String × α)) (k : String) (v : α) (k' : String),
      mapGet (mapSet m k v) k' = if k = k' then some v else mapGet m k' := by
  intro m
  induction m with
  | nil =>
    intro k v k'
    simp [mapSet, mapGet]
  | cons kv rest ih =>
    intro k v k'
    by_cases hk : kv.1 = k
    · simp only [mapSet, hk, if_true, mapGet]
      by_cases hk' : k = k'
      · simp [hk']
      · simp [hk']
    · simp only [mapSet, hk, if_false, mapGet]
      by_cases hkv' : kv.1 = k'
      · have : ¬ k = k' := fun h => hk (h ▸ hkv')
        simp [hkv', this]
      · simp [hkv', ih]

theorem mapGet_foldl_mapSet :
    ∀ (pairs : List (String × String)) (m : List (String × String)) (n : String),
      mapGet (pairs.foldl (fun nm pr => mapSet nm pr.1 pr.2) m) n =
        match lookupLastPair pairs n with
        | some v => some v
        | none => mapGet m n := by
  intro pairs
  induction pairs with
  | nil => intro m n; simp [lookupLastPair]
  | cons pr rest ih =>
    intro m n
    rw [List.foldl_cons, ih]
    have hrev : lookupLastPair (pr :: rest) n =
        match lookupLastPair rest n with
        | some v => some v
        | none => if pr.1 = n then some pr.2 else none := by
      unfold lookupLastPair
      rw [List.reverse_cons, find?_append_match]
      cases List.find? (fun q => decide (q.1 = n)) rest.reverse with
      | none =>
        simp only [Option.map_none']
        by_cases hn : pr.1 = n
        · simp [List.find?_cons_of_pos, hn]
        · rw [if_neg hn]
          have : List.find? (fun q => decide (q.1 = n)) [pr] = none := by
            simp [List.find?_cons_of_neg, hn]
          rw [this]
          rfl
      | some x => simp
    rw [hrev]
    cases lookupLastPair rest n with
    | some v => rfl
    | none =>
      rw [mapGet_mapSet]
      by_cases hn : pr.1 = n
      · simp [hn]
      · simp [hn]

theorem mergeGroupEntry_default (old g : GroupAcc) :
    (mergeGroupEntry old g).defaultImport =
      match g.defaultImport with
      | some d => some d
      | none => old.defaultImport := rfl

theorem mergeGroupEntry_named (old g : GroupAcc) (n : String) :
    mapGet (mergeGroupEntry old g).named n =
      match lookupLastPair g.named n with
      | some v => some v
      | none => mapGet old.named n :=
  mapGet_foldl_mapSet g.named old.named n

theorem mapGet_setGroup_self :
    ∀ (gs : List (String × GroupAcc)) (spec : String) (g : GroupAcc),
      mapGet (setGroup gs spec g) spec =
        some (mergeGroupEntry ((mapGet gs spec).getD ⟨[], none⟩) g) := by
  intro gs
  induction gs with
  | nil => intro spec g; simp [setGroup, mapGet]
  | cons kv rest ih =>
    intro spec g
    by_cases hk : kv.1 = spec
    · simp [setGroup, hk, mapGet]
    · simp only [setGroup, hk, if_false, mapGet]
      exact ih spec g

theorem mapGet_setGroup_other :
    ∀ (gs : List (String × GroupAcc)) (spec : String) (g : GroupAcc)
      (spec' : String), ¬ spec = spec' →
      mapGet (setGroup gs spec g) spec' = mapGet gs spec' := by
  intro gs
  induction gs with
  | nil =>
    intro spec g spec' hne
    simp [setGroup, mapGet, hne]
  | cons kv rest ih =>
    intro spec g spec' hne
    by_cases hk : kv.1 = spec
    · simp only [setGroup, hk, if_true, mapGet]
      simp [hne]
    · simp only [setGroup, hk, if_false, mapGet]
      by_cases hkv' : kv.1 = spec'
      · simp [hkv']
      · simp [hkv', ih spec g spec' hne]

/-- The merged value for one specifier, computed directly over the
rewritten-entry list. -/
def mergedEntryFor (l : List (String × GroupAcc)) (spec : String)
    (init : Option GroupAcc) : Option GroupAcc :=
  l.foldl
    (fun acc kv =>
      if kv.1 = spec then some (mergeGroupEntry (acc.getD ⟨[], none⟩) kv.2) else acc)
    init

theorem mapGet_mergeGroups_foldl :
    ∀ (l : List (String × GroupAcc)) (gs0 : List (String × GroupAcc)) (spec : String),
      mapGet (l.foldl (fun gs kv => setGroup gs kv.1 kv.2) gs0) spec =
        mergedEntryFor l spec (mapGet gs0 spec) := by
  intro l
  induction l with
  | nil => intro gs0 spec; rfl
  | cons kv rest ih =>
    intro gs0 spec
    rw [List.foldl_cons, ih]
    unfold mergedEntryFor
    rw [List.foldl_cons]
    by_cases hk : kv.1 = spec
    · rw [if_pos hk, ← hk, mapGet_setGroup_self]
    · rw [if_neg hk, mapGet_setGroup_other gs0 kv.1 kv.2 spec hk]

theorem mapGet_mergeGroups (l : List (String × GroupAcc)) (spec : String) :
    mapGet (mergeGroups l) spec = mergedEntryFor l spec none := by
  unfold mergeGroups
  rw [mapGet_mergeGroups_foldl]
  rfl

/-- The defaults written for one specifier, in order. -/
def defaultsFor (l : List (String × GroupAcc)) (spec : String) : List String :=
  (l.filter fun kv => decide (kv.1 = spec)).filterMap fun kv => kv.2.defaultImport

/-- The named pairs written for one specifier, in order. -/
def pairsFor (l : List (String × GroupAcc)) (spec : String) : List (String × String) :=
  ((l.filter fun kv => decide (kv.1 = spec)).map fun kv => kv.2.named).flatten

/-- The last element of a list, via `reverse`. -/
def lastOf (l : List String) : Option String := l.reverse.head?

theorem head?_append_match {α : Type} :
    ∀ (l1 l2 : List α), (l1 ++ l2).head? =
      match l1 with
      | [] => l2.head?
      | a :: _ => some a := by
  intro l1 l2
  cases l1 <;> rfl

theorem lookupLastPair_append (p1 p2 : List (String × String)) (n : String) :
    lookupLastPair (p1 ++ p2) n =
      match lookupLastPair p2 n with
      | some v => some v
      | none => lookupLastPair p1 n := by
  unfold lookupLastPair
  rw [List.reverse_append, find?_append_match]
  cases List.find? (fun q => decide (q.1 = n)) p2.reverse with
  | none => rfl
  | some x => rfl

theorem mergedEntryFor_spec :
    ∀ (l : List (String × GroupAcc)) (spec : String),
      (mergedEntryFor l spec none = none ↔
        (l.filter fun kv => decide (kv.1 = spec)) = []) ∧
      (∀ g, mergedEntryFor l spec none = some g →
        g.defaultImport = lastOf (defaultsFor l spec) ∧
        ∀ n, mapGet g.named n = lookupLastPair (pairsFor l spec) n) := by
  intro l spec
  induction l using List.reverseRecOn with
  | nil =>
    refine ⟨by simp [mergedEntryFor], ?_⟩
    intro g hg
    simp [mergedEntryFor] at hg
  | append_singleton l kv ih =>
    obtain ⟨ihn, ihs⟩ := ih
    have hfold : mergedEntryFor (l ++ [kv]) spec none =
        (if kv.1 = spec then
          some (mergeGroupEntry ((mergedEntryFor l spec none).getD ⟨[], none⟩) kv.2)
        else mergedEntryFor l spec none) := by
      unfold mergedEntryFor
      rw [List.foldl_append]
      rfl
    have hfilter : (l ++ [kv]).filter (fun q => decide (q.1 = spec)) =
        l.filter (fun q => decide (q.1 = spec)) ++
          if kv.1 = spec then [kv] else [] := by
      rw [List.filter_append]
      by_cases hk : kv.1 = spec
      · simp [hk]
      · simp [hk]
    by_cases hk : kv.1 = spec
    · rw [hfold, if_pos hk]
      constructor
      · constructor
        · intro h; cases h
        · intro h
          rw [hfilter, if_pos hk] at h
          cases List.append_eq_nil.1 h |>.2
      · intro g hg
        cases hg
        constructor
        · rw [mergeGroupEntry_default]
          have hdefs : defaultsFor (l ++ [kv]) spec =
              defaultsFor l spec ++ kv.2.defaultImport.toList := by
            unfold defaultsFor
            rw [hfilter, if_pos hk, List.filterMap_append]
            cases hv : kv.2.defaultImport with
            | none => simp [List.filterMap_cons, hv]
            | some d => simp [List.filterMap_cons, hv]
          rw [hdefs]
          unfold lastOf
          rw [List.reverse_append]
          cases hd : kv.2.defaultImport with
          | none =>
            simp only [Option.toList_none, List.reverse_nil, List.nil_append]
            cases hprev : mergedEntryFor l spec none with
            | none =>
              have := ihn.1 hprev
              unfold defaultsFor
              rw [this]
              rfl
            | some g0 =>
              have := (ihs g0 hprev).1
              simp only [Option.getD_some]
              rw [this]
              rfl
          | some d =>
            simp only [Option.toList_some, List.reverse_singleton]
            rfl
        · intro n
          rw [mergeGroupEntry_named]
          have hpairs : pairsFor (l ++ [kv]) spec =
              pairsFor l spec ++ kv.2.named := by
            unfold pairsFor
            rw [hfilter, if_pos hk, List.map_append, List.flatten_append]
            simp
          rw [hpairs, lookupLastPair_append]
          cases hlk : lookupLastPair kv.2.named n with
          | some v => rfl
          | none =>
            cases hprev : mergedEntryFor l spec none with
            | none =>
              have := ihn.1 hprev
              simp only [Option.getD_none]
              unfold pairsFor
              rw [this]
              simp only [List.map_nil, List.flatten_nil]
              rfl
            | some g0 =>
              have := (ihs g0 hprev).2 n
              simp only [Option.getD_some]
              rw [this]
    · rw [hfold, if_neg hk]
      have hdefs : defaultsFor (l ++ [kv]) spec = defaultsFor l spec := by
        unfold defaultsFor
        rw [hfilter, if_neg hk, List.append_nil]
      have hpairs : pairsFor (l ++ [kv]) spec = pairsFor l spec := by
        unfold pairsFor
        rw [hfilter, if_neg hk, List.append_nil]
      constructor
      · rw [ihn, hfilter, if_neg hk, List.append_nil]
      · intro g hg
        obtain ⟨h1, h2⟩ := ihs g hg
        exact ⟨by rw [hdefs]; exact h1, fun n => by rw [hpairs]; exact h2 n⟩

/-! ## Uniqueness of group keys -/

theorem keys_setGroup :
    ∀ (gs : List (String × GroupAcc)) (spec : String) (g : GroupAcc),
      (setGroup gs spec g).map Prod.fst =
        if spec ∈ gs.map Prod.fst then gs.map Prod.fst
        else gs.map Prod.fst ++ [spec] := by
  intro gs
  induction gs with
  | nil => intro spec g; simp [setGroup]
  | cons kv rest ih =>
    intro spec g
    by_cases hk : kv.1 = spec
    · simp only [setGroup, hk, if_true, List.map_cons]
      rw [if_pos (by rw [← hk]; exact List.mem_cons_self _ _)]
    · simp only [setGroup, hk, if_false, List.map_cons, ih]
      have hne : ¬ spec = kv.1 := fun h => hk h.symm
      by_cases hmem : spec ∈ rest.map Prod.fst
      · rw [if_pos hmem, if_pos (List.mem_cons_of_mem _ hmem)]
      · rw [if_neg hmem, if_neg (by
          intro h
          rcases List.mem_cons.1 h with h | h
          · exact hne h
          · exact hmem h)]
        rfl

theorem nodup_keys_setGroup (gs : List (String × GroupAcc)) (spec : String)
    (g : GroupAcc) (h : (gs.map Prod.fst).Nodup) :
    ((setGroup gs spec g).map Prod.fst).Nodup := by
  rw [keys_setGroup]
  by_cases hmem : spec ∈ gs.map Prod.fst
  · rw [if_pos hmem]; exact h
  · rw [if_neg hmem]
    refine List.Nodup.append h (List.nodup_singleton spec) ?_
    intro x hx hx'
    rw [List.mem_singleton] at hx'
    exact hmem (hx' ▸ hx)

theorem nodup_keys_mergeGroups (l : List (String × GroupAcc)) :
    ((mergeGroups l).map Prod.fst).Nodup := by
  unfold mergeGroups
  have : ∀ (gs0 : List (String × GroupAcc)), (gs0.map Prod.fst).Nodup →
      ((l.foldl (fun gs kv => setGroup gs kv.1 kv.2) gs0).map Prod.fst).Nodup := by
    induction l with
    | nil => intro gs0 h; exact h
    | cons kv rest ih =>
      intro gs0 h
      rw [List.foldl_cons]
      exact ih _ (nodup_keys_setGroup gs0 kv.1 kv.2 h)
  exact this [] (by simp)

/-- Claim C10: within one file, rewritten entries are merged per resolved
specifier; the merged group's default slot holds the last default written
for that specifier, a name maps to the alias of the last pair written for
it (last-writer-wins), the final `importGroups` has pairwise distinct
specifiers (one emitted statement per specifier), and each emitted
statement carries at most the single merged default. -/
theorem claim_C10 (proj : Project) (file : Module) (spec : String) (g : GroupAcc)
    (hg : mapGet (fileGroups proj file) spec = some g) :
    g.defaultImport = lastOf (defaultsFor (fileRewrittenList proj file) spec) ∧
    (∀ n, mapGet g.named n =
      lookupLastPair (pairsFor (fileRewrittenList proj file) spec) n) ∧
    ((fileGroups proj file).map Prod.fst).Nodup ∧
    (groupToImportDecl spec g).defaultImport = g.defaultImport := by
  have hmg : mergedEntryFor (fileRewrittenList proj file) spec none = some g := by
    rw [← mapGet_mergeGroups]
    exact hg
  obtain ⟨h1, h2⟩ := (mergedEntryFor_spec (fileRewrittenList proj file) spec).2 g hmg
  exact ⟨h1, h2, nodup_keys_mergeGroups _, rfl⟩

/-! ## Idempotence of the rewrite (claim C4)

A binding "keeps" when its symbol is absent from the target's exports or
when the computed specifier equals the import's own specifier; an import
all of whose bindings keep produces no change.  The rewrite's own outputs
satisfy these conditions — for residual imports this is derivable from the
first pass, for merged group imports it is the coherence of the external
resolution service on the freshly computed specifiers (the oracle must
resolve a specifier it just produced back to the file it was produced
from), stated as `groupCoherent`. -/

def keepCond (proj : Project) (barrelPath selfPath spec : String)
    (ni : NamedImportSpec) : Prop :=
  match proj.exportedDeclPath barrelPath ni.name with
  | none => True
  | some f => computeResolved proj selfPath f = spec

def defaultKeepCond (proj : Project) (barrelPath selfPath spec : String)
    (di : Option String) : Prop :=
  match di with
  | none => True
  | some _ =>
    match proj.defaultExportPath barrelPath with
    | none => True
    | some f => computeResolved proj selfPath f = spec

/-- Coherence of the external resolver on one emitted group: if the
emitted specifier resolves to a barrel module, then every written name
resolves (when it resolves at all) to a file whose computed specifier is
the emitted specifier itself, and likewise for the default slot. -/
def groupCoherent (proj : Project) (selfPath spec : String) (g : GroupAcc) : Bool :=
  match (proj.resolveImportSpecifier selfPath spec).bind proj.findModule with
  | none => true
  | some m =>
    if isBarrelModule m then
      (g.named.all fun pr =>
        match proj.exportedDeclPath m.path pr.1 with
        | none => true
        | some f => decide (computeResolved proj selfPath f = spec)) &&
      (match g.defaultImport with
       | none => true
       | some _ =>
         match proj.defaultExportPath m.path with
         | none => true
         | some f => decide (computeResolved proj selfPath f = spec))
    else true

theorem processDefaultImport_keptNamed (proj : Project)
    (barrelPath selfPath spec : String) (di : Option String) :
    (processDefaultImport proj barrelPath selfPath spec di).keptNamed = [] := by
  unfold processDefaultImport
  cases di with
  | none => rfl
  | some d =>
    cases proj.defaultExportPath barrelPath with
    | none => rfl
    | some f =>
      by_cases hr : computeResolved proj selfPath f = spec
      · simp [hr]
      · simp [hr]

theorem processDefaultImport_noChange (proj : Project)
    (barrelPath selfPath spec : String) (di : Option String)
    (h : defaultKeepCond proj barrelPath selfPath spec di) :
    processDefaultImport proj barrelPath selfPath spec di = ⟨[], [], false⟩ := by
  unfold processDefaultImport
  unfold defaultKeepCond at h
  cases di with
  | none => rfl
  | some d =>
    cases hf : proj.defaultExportPath barrelPath with
    | none => rfl
    | some f =>
      rw [hf] at h
      simp [h]

theorem processNamedImport_keep (proj : Project)
    (barrelPath selfPath spec : String) (rm : ExportMap) (st : ProcState)
    (ni : NamedImportSpec) (h : keepCond proj barrelPath selfPath spec ni) :
    processNamedImport proj barrelPath selfPath spec rm st ni =
      { st with keptNamed := st.keptNamed ++ [ni] } := by
  unfold processNamedImport
  unfold keepCond at h
  cases hf : proj.exportedDeclPath barrelPath ni.name with
  | none => rfl
  | some f =>
    rw [hf] at h
    simp [h]

theorem foldl_processNamedImport_keep (proj : Project)
    (barrelPath selfPath spec : String) (rm : ExportMap) :
    ∀ (l : List NamedImportSpec) (st : ProcState),
      (∀ ni ∈ l, keepCond proj barrelPath selfPath spec ni) →
      l.foldl (processNamedImport proj barrelPath selfPath spec rm) st =
        { st with keptNamed := st.keptNamed ++ l } := by
  intro l
  induction l with
  | nil => intro st _; simp
  | cons ni l ih =>
    intro st h
    rw [List.foldl_cons,
      processNamedImport_keep proj barrelPath selfPath spec rm st ni
        (h ni (List.mem_cons_self _ _)),
      ih _ (fun x hx => h x (List.mem_cons_of_mem _ hx))]
    simp

/-- An import all of whose bindings keep produces no change. -/
theorem processState_noChange (proj : Project) (barrel : Module)
    (selfPath : String) (imp : ImportDecl) (rm : ExportMap)
    (hd : defaultKeepCond proj barrel.path selfPath imp.moduleSpecifier
      imp.defaultImport)
    (hn : ∀ ni ∈ imp.namedImports,
      keepCond proj barrel.path selfPath imp.moduleSpecifier ni) :
    processState proj barrel selfPath imp rm =
      ⟨[], imp.namedImports, false⟩ := by
  unfold processState
  rw [processDefaultImport_noChange proj barrel.path selfPath imp.moduleSpecifier
    imp.defaultImport hd]
  rw [foldl_processNamedImport_keep proj barrel.path selfPath imp.moduleSpecifier
    rm imp.namedImports ⟨[], [], false⟩ hn]
  rfl

/-- Members of `keptNamed` always satisfy the keep condition. -/
theorem processNamedImport_kept_cond (proj : Project)
    (barrelPath selfPath spec : String) (rm : ExportMap) (st : ProcState)
    (ni : NamedImportSpec)
    (h : ∀ x ∈ st.keptNamed, keepCond proj barrelPath selfPath spec x) :
    ∀ x ∈ (processNamedImport proj barrelPath selfPath spec rm st ni).keptNamed,
      keepCond proj barrelPath selfPath spec x := by
  unfold processNamedImport
  cases hf : proj.exportedDeclPath barrelPath ni.name with
  | none =>
    intro x hx
    rcases List.mem_append.1 hx with hx | hx
    · exact h x hx
    · rw [List.mem_singleton.1 hx]
      unfold keepCond
      rw [hf]
      trivial
  | some f =>
    by_cases hr : computeResolved proj selfPath f = spec
    · simp only [hr, if_pos rfl, eq_self_iff_true, if_true]
      intro x hx
      rcases List.mem_append.1 hx with hx | hx
      · exact h x hx
      · rw [List.mem_singleton.1 hx]
        unfold keepCond
        rw [hf]
        exact hr
    · simp only [hr, if_false]
      exact h

theorem processState_kept_cond (proj : Project) (barrel : Module)
    (selfPath : String) (imp : ImportDecl) (rm : ExportMap) :
    ∀ x ∈ (processState proj barrel selfPath imp rm).keptNamed,
      keepCond proj barrel.path selfPath imp.moduleSpecifier x := by
  unfold processState
  have base : ∀ x ∈ (processDefaultImport proj barrel.path selfPath
      imp.moduleSpecifier imp.defaultImport).keptNamed,
      keepCond proj barrel.path selfPath imp.moduleSpecifier x := by
    rw [processDefaultImport_keptNamed]
    intro x hx
    cases hx
  generalize hst0 : processDefaultImport proj barrel.path selfPath
    imp.moduleSpecifier imp.defaultImport = st0
  rw [hst0] at base
  clear hst0
  induction imp.namedImports generalizing st0 with
  | nil => exact base
  | cons ni l ih =>
    rw [List.foldl_cons]
    exact ih _ (processNamedImport_kept_cond proj barrel.path selfPath
      imp.moduleSpecifier rm st0 ni base)

theorem importChange_none_of_keep (proj : Project) (selfPath : String)
    (imp : ImportDecl)
    (h : ∀ m, (proj.resolveImportSpecifier selfPath imp.moduleSpecifier).bind
        proj.findModule = some m → isBarrelModule m = true →
      defaultKeepCond proj m.path selfPath imp.moduleSpecifier imp.defaultImport ∧
      ∀ ni ∈ imp.namedImports,
        keepCond proj m.path selfPath imp.moduleSpecifier ni) :
    importChange proj selfPath imp = none := by
  simp only [importChange]
  by_cases hl : (jsStartsWith imp.moduleSpecifier "." ||
      (aliasPrefixList proj).any fun a => jsStartsWith imp.moduleSpecifier a) = true
  · simp only [hl, Bool.not_true, Bool.false_eq_true, if_false]
    cases hres : (proj.resolveImportSpecifier selfPath imp.moduleSpecifier).bind
        proj.findModule with
    | none => rfl
    | some m =>
      by_cases hb : isBarrelModule m = true
      · simp only [hb, if_true]
        obtain ⟨hd, hn⟩ := h m hres hb
        simp only [processImportDeclaration]
        rw [processState_noChange proj m selfPath imp
          ((getReExportMapRecursive proj m).getD []) hd hn]
        rfl
      · simp only [Bool.not_eq_true] at hb
        simp only [hb, Bool.false_eq_true, if_false]
  · simp only [Bool.not_eq_true] at hl
    simp only [hl, Bool.not_false, if_true]

theorem importChange_some_inv (proj : Project) (selfPath : String)
    (imp : ImportDecl) (pr : ProcessResult)
    (h : importChange proj selfPath imp = some pr) :
    ∃ m, (proj.resolveImportSpecifier selfPath imp.moduleSpecifier).bind
        proj.findModule = some m ∧ isBarrelModule m = true ∧
      pr = processImportDeclaration proj m selfPath imp
        ((getReExportMapRecursive proj m).getD []) ∧ pr.changed = true := by
  simp only [importChange] at h
  by_cases hl : (jsStartsWith imp.moduleSpecifier "." ||
      (aliasPrefixList proj).any fun a => jsStartsWith imp.moduleSpecifier a) = true
  · simp only [hl, Bool.not_true, Bool.false_eq_true, if_false] at h
    cases hres : (proj.resolveImportSpecifier selfPath imp.moduleSpecifier).bind
        proj.findModule with
    | none => rw [hres] at h; cases h
    | some m =>
      rw [hres] at h
      by_cases hb : isBarrelModule m = true
      · simp only [hb, if_true] at h
        by_cases hch : (processImportDeclaration proj m selfPath imp
            ((getReExportMapRecursive proj m).getD [])).changed = true
        · rw [if_pos hch] at h
          cases h
          exact ⟨m, rfl, hb, rfl, hch⟩
        · rw [if_neg hch] at h
          cases h
      · simp only [Bool.not_eq_true] at hb
        simp only [hb, Bool.false_eq_true, if_false] at h
        cases h
  · simp only [Bool.not_eq_true] at hl
    simp only [hl, Bool.not_false, if_true] at h
    cases h

theorem processImportDeclaration_residual_eq (proj : Project) (barrel : Module)
    (selfPath : String) (imp : ImportDecl) (rm : ExportMap)
    (kept : List NamedImportSpec)
    (h : (processImportDeclaration proj barrel selfPath imp rm).residual
      = some kept) :
    kept = (processState proj barrel selfPath imp rm).keptNamed := by
  unfold processImportDeclaration at h
  by_cases hc : (processState proj barrel selfPath imp rm).changed = true
  · simp only [hc, if_true] at h
    by_cases he : (processState proj barrel selfPath imp rm).keptNamed.isEmpty = true
    · simp only [he, if_true] at h
      cases h
    · simp only [he, Bool.false_eq_true, if_false] at h
      cases h
      rfl
  · simp only [Bool.not_eq_true] at hc
    simp only [hc, Bool.false_eq_true, if_false] at h
    cases h

/-- A residual import emitted by the first pass keeps all its bindings on
the second pass, producing no further change. -/
theorem importChange_residual_none (proj : Project) (selfPath : String)
    (imp : ImportDecl) (pr : ProcessResult) (kept : List NamedImportSpec)
    (h : importChange proj selfPath imp = some pr)
    (hres : pr.residual = some kept) :
    importChange proj selfPath
      (residualToImportDecl imp.moduleSpecifier kept) = none := by
  obtain ⟨m, hm, hb, hpr, _⟩ := importChange_some_inv proj selfPath imp pr h
  rw [hpr] at hres
  have hkept := processImportDeclaration_residual_eq proj m selfPath imp
    ((getReExportMapRecursive proj m).getD []) kept hres
  apply importChange_none_of_keep
  intro m' hm' hb'
  have hm'' : (proj.resolveImportSpecifier selfPath imp.moduleSpecifier).bind
      proj.findModule = some m' := hm'
  rw [hm] at hm''
  cases hm''
  constructor
  · trivial
  · intro ni hni
    have hni' : ni ∈ (processState proj m selfPath imp
        ((getReExportMapRecursive proj m).getD [])).keptNamed := by
      rw [← hkept]
      exact hni
    exact processState_kept_cond proj m selfPath imp _ ni hni'

/-- A merged group import emitted by the first pass keeps all its bindings
on the second pass, under the resolver-coherence hypothesis. -/
theorem importChange_group_none (proj : Project) (selfPath spec : String)
    (g : GroupAcc) (hco : groupCoherent proj selfPath spec g = true) :
    importChange proj selfPath (groupToImportDecl spec g) = none := by
  apply importChange_none_of_keep
  intro m hm hb
  unfold groupCoherent at hco
  have hm' : (proj.resolveImportSpecifier selfPath spec).bind proj.findModule
      = some m := hm
  rw [hm'] at hco
  simp only [hb, if_true, Bool.and_eq_true] at hco
  obtain ⟨hnamed, hdef⟩ := hco
  constructor
  · show defaultKeepCond proj m.path selfPath spec g.defaultImport
    unfold defaultKeepCond
    cases hdi : g.defaultImport with
    | none => trivial
    | some d =>
      rw [hdi] at hdef
      cases hdp : proj.defaultExportPath m.path with
      | none => trivial
      | some f =>
        rw [hdp] at hdef
        exact of_decide_eq_true hdef
  · intro ni hni
    show keepCond proj m.path selfPath spec ni
    have hni' : ni ∈ (groupToImportDecl spec g).namedImports := hni
    unfold groupToImportDecl at hni'
    simp only [List.mem_map] at hni'
    obtain ⟨pr, hpr, hren⟩ := hni'
    have hname : ni.name = pr.1 := by
      by_cases hpe : pr.1 = pr.2
      · rw [if_pos hpe] at hren; rw [← hren]
      · rw [if_neg hpe] at hren; rw [← hren]
    rw [List.all_eq_true] at hnamed
    have hthis := hnamed pr hpr
    unfold keepCond
    rw [hname]
    cases hf : proj.exportedDeclPath m.path pr.1 with
    | none => trivial
    | some f =>
      rw [hf] at hthis
      exact of_decide_eq_true hthis

/-- A file all of whose imports analyze to "no change" is returned
unchanged by the rewrite. -/
theorem rewriteImportsInFile_id (proj : Project) (file : Module)
    (h : ∀ imp ∈ file.imports, importChange proj file.path imp = none) :
    rewriteImportsInFile proj file = file := by
  have hmap : ∀ (l : List ImportDecl),
      (∀ i ∈ l, importChange proj file.path i = none) →
      ((l.map fun imp => (imp, importChange proj file.path imp)).filter
        (fun r => r.2.isNone)).map Prod.fst = l ∧
      ((l.map fun imp => (imp, importChange proj file.path imp)).filterMap fun r =>
        r.2.bind fun pr => pr.residual.map fun kept =>
          residualToImportDecl r.1.moduleSpecifier kept) = [] ∧
      l.filterMap (importChange proj file.path) = [] := by
    intro l
    induction l with
    | nil => intro _; exact ⟨rfl, rfl, rfl⟩
    | cons i l ih =>
      intro hl
      have hi := hl i (List.mem_cons_self _ _)
      obtain ⟨h1, h2, h3⟩ := ih fun x hx => hl x (List.mem_cons_of_mem _ hx)
      refine ⟨?_, ?_, ?_⟩
      · simp [hi, h1]
      · simp [hi, h2]
      · simp [List.filterMap_cons, hi, h3]
  obtain ⟨h1, h2, h3⟩ := hmap file.imports h
  have hgr : fileGroups proj file = [] := by
    unfold fileGroups fileRewrittenList
    rw [h3]
    rfl
  simp only [rewriteImportsInFile]
  rw [h1, h2, hgr]
  simp

/-- Claim C4: the rewrite is idempotent.  For every file, a second pass
over the output of the first produces no further changes — kept imports
analyze identically, residual imports keep all their bindings by
construction, and merged group imports keep all their bindings because
every written specifier equals the computed specifier of its bindings'
defining files (`groupCoherent`, the coherence of the external resolution
service on the emitted specifiers). -/
theorem claim_C4 (proj : Project) (file : Module)
    (H : ∀ kv ∈ fileGroups proj file,
      groupCoherent proj file.path kv.1 kv.2 = true) :
    rewriteImportsInFile proj (rewriteImportsInFile proj file) =
      rewriteImportsInFile proj file := by
  apply rewriteImportsInFile_id
  intro imp hmem
  show importChange proj file.path imp = none
  have hmem' : imp ∈
      ((file.imports.map fun i => (i, importChange proj file.path i)).filter
        (fun r => r.2.isNone)).map Prod.fst ++
      (((file.imports.map fun i => (i, importChange proj file.path i)).filterMap
        fun r => r.2.bind fun pr => pr.residual.map fun kept =>
          residualToImportDecl r.1.moduleSpecifier kept) ++
      (fileGroups proj file).map fun kv => groupToImportDecl kv.1 kv.2) := by
    rw [← List.append_assoc]
    exact hmem
  rw [List.mem_append, List.mem_append] at hmem'
  rcases hmem' with hk | hr | hg
  · rw [List.mem_map] at hk
    obtain ⟨r, hrmem, hfst⟩ := hk
    rw [List.mem_filter] at hrmem
    obtain ⟨hrres, hisnone⟩ := hrmem
    rw [List.mem_map] at hrres
    obtain ⟨i, _, hri⟩ := hrres
    rw [← hri] at hisnone hfst
    simp only [Option.isNone_iff_eq_none] at hisnone
    rw [← hfst]
    exact hisnone
  · rw [List.mem_filterMap] at hr
    obtain ⟨r, hrmem, hbind⟩ := hr
    rw [List.mem_map] at hrmem
    obtain ⟨i, _, hri⟩ := hrmem
    rw [← hri] at hbind
    simp only [Option.bind_eq_some, Option.map_eq_some'] at hbind
    obtain ⟨pr, hpr, kept, hkept, himp⟩ := hbind
    rw [← himp]
    exact importChange_residual_none proj file.path i pr kept hpr hkept
  · rw [List.mem_map] at hg
    obtain ⟨kv, hkv, himp⟩ := hg
    rw [← himp]
    exact importChange_group_none proj file.path kv.1 kv.2 (H kv hkv)

/-! ## Concrete rewrite scenario (witness material for C4 and C10)

`/app.ts` imports `{ x }` from the barrel `/barrel.ts`, which re-exports
`x` from `/x.ts`; the rewrite points the import directly at `./x`. -/

def modW4x : Module := ⟨"/x.ts", [.other], []⟩

def barrelW4 : Module :=
  ⟨"/barrel.ts", [.exportDecl ⟨some "./x", false, [⟨"x", none⟩]⟩], []⟩

def fileW4 : Module := ⟨"/app.ts", [.other], [⟨"./barrel", none, [⟨"x", none⟩]⟩]⟩

def projW4 : Project where
  modules := [fileW4, barrelW4, modW4x]
  resolveExportSpecifier := fun fromP sp =>
    if fromP = "/barrel.ts" && sp = "./x" then some "/x.ts" else none
  resolveImportSpecifier := fun fromP sp =>
    if fromP = "/app.ts" && sp = "./barrel" then some "/barrel.ts"
    else if fromP = "/app.ts" && sp = "./x" then some "/x.ts" else none
  exportedDeclPath := fun p n =>
    if p = "/barrel.ts" && n = "x" then some "/x.ts" else none
  defaultExportPath := fun _ => none
  pathResolve := id
  relative := fun _ t => if t = "/x.ts" then "x.ts" else t
  paths := []

/-- Witness for C4: on the concrete project the resolver coherence holds
(checked by evaluation) and the second pass reproduces the first pass's
output exactly. -/
theorem claim_C4_witness :
    rewriteImportsInFile projW4 (rewriteImportsInFile projW4 fileW4) =
      rewriteImportsInFile projW4 fileW4 :=
  claim_C4 projW4 fileW4 (by decide)

/-- Witness for C10 at a concrete input: the single merged group under
`./x` satisfies the last-default, last-writer-wins and unique-specifier
characterizations. -/
theorem claim_C10_witness :
    (⟨[("x", "x")], none⟩ : GroupAcc).defaultImport =
      lastOf (defaultsFor (fileRewrittenList projW4 fileW4) "./x") ∧
    (∀ n, mapGet (⟨[("x", "x")], none⟩ : GroupAcc).named n =
      lookupLastPair (pairsFor (fileRewrittenList projW4 fileW4) "./x") n) ∧
    ((fileGroups projW4 fileW4).map Prod.fst).Nodup ∧
    (groupToImportDecl "./x" ⟨[("x", "x")], none⟩).defaultImport =
      (⟨[("x", "x")], none⟩ : GroupAcc).defaultImport :=
  claim_C10 projW4 fileW4 "./x" ⟨[("x", "x")], none⟩ (by decide)

end BarrelBreaker
